import Mathlib

/-!
Verification of the hubell data-acquisition and aggregation engine.

The Go sources under `internal/github` and `internal/config` are embedded
shallowly: pure functions become Lean functions, Go maps become association
lists, the network becomes explicit environment parameters, and the
concurrent fan-out loops become sequential folds over the work lists (the
per-item results are order-independent, so a sequential model captures the
map contents exactly).
-/

namespace Hubell

/-- Aggregate CI status of a pull request (`PRStatus` in `types.go`). -/
inductive PRStatus where
  | none
  | pending
  | success
  | failure
deriving DecidableEq, Repr

/-- Aggregate review approval state of a pull request
(`PRReviewState` in `types.go`). -/
inductive PRReviewState where
  | none
  | approved
  | changesRequested
  | reviewed
deriving DecidableEq, Repr

/-- A single check run (`CheckRun` in `types.go`). -/
structure CheckRun where
  id : Nat
  name : String
  status : String
  conclusion : String
deriving DecidableEq, Repr

/-- Response of the check-runs API (`CheckRunsResponse` in `types.go`). -/
structure CheckRunsResponse where
  totalCount : Nat
  checkRuns : List CheckRun
deriving DecidableEq, Repr

/-- A single legacy commit status (`CommitStatus` in `types.go`). -/
structure CommitStatus where
  id : Nat
  context : String
  state : String
  description : String
deriving DecidableEq, Repr

/-- Combined legacy commit status (`CombinedStatus` in `types.go`). -/
structure CombinedStatus where
  state : String
  totalCount : Nat
  statuses : List CommitStatus
deriving DecidableEq, Repr

/-- A GitHub user (`User` in `types.go`). -/
structure User where
  login : String
deriving DecidableEq, Repr

/-- A single pull-request review (`Review` in `types.go`); timestamps are
modelled as natural numbers. -/
structure Review where
  id : Nat
  user : User
  state : String
  submittedAt : Nat
deriving DecidableEq, Repr

/-- Model of `computeAggregateStatus` from `pr_status.go`: zero runs give `none`;
a first pass returns `pending` at any `queued` / `in_progress` run; a
second pass returns `failure` at any `failure` / `cancelled` / `timed_out`
conclusion; otherwise `success`. -/
def computeAggregateStatus (checkRuns : CheckRunsResponse) : PRStatus :=
  if checkRuns.totalCount == 0 then
    PRStatus.none
  else if checkRuns.checkRuns.any
      (fun cr => cr.status == "queued" || cr.status == "in_progress") then
    PRStatus.pending
  else if checkRuns.checkRuns.any
      (fun cr => cr.conclusion == "failure" || cr.conclusion == "cancelled"
        || cr.conclusion == "timed_out") then
    PRStatus.failure
  else
    PRStatus.success

/-- Model of `statusToCheckRun` from `pr_status.go`: adapt a legacy commit
status into a check run. -/
def statusToCheckRun (s : CommitStatus) : CheckRun :=
  if s.state == "success" then
    { id := s.id, name := s.context, status := "completed", conclusion := "success" }
  else if s.state == "failure" || s.state == "error" then
    { id := s.id, name := s.context, status := "completed", conclusion := "failure" }
  else if s.state == "pending" then
    { id := s.id, name := s.context, status := "in_progress", conclusion := "" }
  else
    { id := s.id, name := s.context, status := "completed", conclusion := s.state }

/-- Model of `WeekKey` from `weekly_stats.go`, applied to an already-split
(ISO year, ISO week) pair: the string `"YYYY-Www"`, with the week number
zero-padded to two digits. -/
def WeekKey (year week : Nat) : String :=
  toString year ++ "-W" ++ (if week < 10 then "0" ++ toString week else toString week)

/-- The pruning pass of `SaveWeeklyStats` from `weekly_stats.go`: drop every
entry whose week key is lexicographically smaller than the cutoff key (the
cutoff being the week key of the instant 26*7 days before now). -/
def pruneWeeks (weeks : List (String × Nat)) (cutoffKey : String) : List (String × Nat) :=
  weeks.filter (fun kv => !decide (kv.1 < cutoffKey))

/-- An item of the search API (`SearchItem` in `types.go`). -/
structure SearchItem where
  number : Nat
  title : String
  htmlURL : String
  user : User
  createdAt : Nat
  closedAt : Option Nat
  pullRequestRefURL : String
  repositoryURL : String
deriving DecidableEq, Repr

/-- A search API response (`SearchResult` in `types.go`). -/
structure SearchResult where
  totalCount : Nat
  items : List SearchItem
deriving DecidableEq, Repr

/-- Head ref of a pull request (`PRHead` in `types.go`; the `Ref` field is
read by `pollAllPRs` in `pr_status.go`). -/
structure PRHead where
  sha : String
  ref : String
deriving DecidableEq, Repr

/-- A pull request (`PullRequest` in `types.go`). -/
structure PullRequest where
  number : Nat
  title : String
  head : PRHead
  additions : Nat
  deletions : Nat
deriving DecidableEq, Repr

/-- Metadata about an open pull request (`PRInfo` in `types.go`). -/
structure PRInfo where
  owner : String
  repo : String
  number : Nat
  title : String
  url : String
  createdAt : Nat
  branch : String
  reviewState : PRReviewState
  reviews : List Review
  additions : Nat
  deletions : Nat
  checkRuns : List CheckRun
deriving DecidableEq, Repr

/-- Metadata about a merged pull request (`MergedPRInfo` in `types.go`);
`mergedAt = 0` models the zero time. -/
structure MergedPRInfo where
  owner : String
  repo : String
  number : Nat
  title : String
  url : String
  mergedAt : Nat
deriving DecidableEq, Repr

/-- A CI status transition on a pull request (`PRStatusChange` in
`types.go`). -/
structure PRStatusChange where
  owner : String
  repo : String
  number : Nat
  title : String
  url : String
  oldStatus : PRStatus
  newStatus : PRStatus
deriving DecidableEq, Repr

/-- Aggregated activity of one org member (`OrgMemberActivity` in
`types.go`). -/
structure OrgMemberActivity where
  login : String
  mergedPRs : List MergedPRInfo
  openPRs : List MergedPRInfo
deriving DecidableEq, Repr

/-- Subject of a notification. The `latestCommentURL` field is the
`Subject.LatestCommentURL` string read by `enrichNotifications` in
`poller.go` (its declaration is not among the provided sources; the field is
modelled from that use as a plain string, empty when absent). -/
structure Subject where
  title : String
  url : String
  latestCommentURL : String
deriving DecidableEq, Repr

/-- A GitHub notification (`Notification` in `types.go`). -/
structure Notification where
  id : String
  subject : Subject
deriving DecidableEq, Repr

/-- Payload cached per comment URL by the poller. Its declaration is not
among the provided sources; `enrichNotifications` treats it as an opaque
value, so it is modelled as an opaque payload string. -/
structure CommentDetail where
  body : String
deriving DecidableEq, Repr

/-- A loading step (`LoadingStep` in `poller.go`). -/
inductive LoadingStep where
  | notifications
  | pullRequests
  | mergedPRs
  | weeklyStats
deriving DecidableEq, Repr

/-- A progress event (`LoadingProgress` in `poller.go`). -/
structure LoadingProgress where
  step : LoadingStep
  current : Nat
  total : Nat
  done : Bool
deriving DecidableEq, Repr

/-- Association-list lookup, the model of Go map indexing. -/
def alookup {α : Type} : List (String × α) → String → Option α
  | [], _ => Option.none
  | kv :: rest, k => if kv.1 == k then some kv.2 else alookup rest k

/-- Association-list insert-or-overwrite, the model of Go map assignment:
the key's previous binding, if any, is replaced. -/
def insertKV {α : Type} (m : List (String × α)) (k : String) (v : α) : List (String × α) :=
  (k, v) :: m.filter (fun kv => kv.1 != k)

/-- Split a character list at its first slash (the `strings.SplitN(rest,
"/", 2)` of `parseRepoURL`); `none` when no slash occurs. -/
def breakAtSlash : List Char → Option (List Char × List Char)
  | [] => Option.none
  | c :: rest =>
    if c = '/' then Option.some ([], rest)
    else (breakAtSlash rest).map (fun p => (c :: p.1, p.2))

/-- Model of `parseRepoURL` from `pr_status.go`: strip the
`https://api.github.com/repos/` prefix and split the rest at the first
slash; anything malformed yields two empty strings. Strings are handled as
their character lists, matching Go's bytewise handling on these ASCII
URLs. -/
def parseRepoURL (url : String) : String × String :=
  let pre := "https://api.github.com/repos/".data
  if pre.isPrefixOf url.data then
    match breakAtSlash (url.data.drop pre.length) with
    | Option.some p => (⟨p.1⟩, ⟨p.2⟩)
    | Option.none => ("", "")
  else ("", "")

/-- Model of `PRKey` from `pr_status.go`: the stable map key
`owner/repo#number`. -/
def PRKey (owner repo : String) (number : Nat) : String :=
  owner ++ "/" ++ repo ++ "#" ++ toString number

/-- One step of the `latestByUser` loop in `computeReviewState`
(`pr_status.go`): a meaningful state (`APPROVED`, `CHANGES_REQUESTED`,
`COMMENTED`) overwrites the reviewer's recorded entry, `DISMISSED` deletes
it, anything else (or an empty login) leaves the map unchanged. -/
def applyReview (m : List (String × String)) (r : Review) : List (String × String) :=
  if r.user.login == "" then m
  else if r.state == "APPROVED" || r.state == "CHANGES_REQUESTED"
      || r.state == "COMMENTED" then
    (r.user.login, r.state) :: m.filter (fun kv => kv.1 != r.user.login)
  else if r.state == "DISMISSED" then
    m.filter (fun kv => kv.1 != r.user.login)
  else m

/-- The `latestByUser` map of `computeReviewState` (`pr_status.go`),
accumulated over the reviews in their server-chronological list order. -/
def latestByUser (reviews : List Review) : List (String × String) :=
  reviews.foldl applyReview []

/-- Model of `computeReviewState` from `pr_status.go`. The final scan of
the Go map returns `changes_requested` as soon as any remaining vote is
`CHANGES_REQUESTED`, else `approved` when any is `APPROVED`, else
`reviewed`; this is order-independent, so scanning the association list
reproduces it exactly. -/
def computeReviewState (reviews : List Review) : PRReviewState :=
  if reviews.isEmpty then PRReviewState.none
  else
    let m := latestByUser reviews
    if m.isEmpty then PRReviewState.none
    else if m.any (fun kv => kv.2 == "CHANGES_REQUESTED") then
      PRReviewState.changesRequested
    else if m.any (fun kv => kv.2 == "APPROVED") then PRReviewState.approved
    else PRReviewState.reviewed

/-- Whether a review state is one the `latestByUser` loop reacts to at
all: the three meaningful states or a dismissal. -/
def relevantState (s : String) : Bool :=
  s == "APPROVED" || s == "CHANGES_REQUESTED" || s == "COMMENTED" || s == "DISMISSED"

/-- Specification-side description of the reviewer's trace: the state of
the LAST review by `login` whose state is relevant (meaningful or
`DISMISSED`), if any. -/
def lastEntry (login : String) : List Review → Option String
  | [] => Option.none
  | r :: rest =>
    let tail := lastEntry login rest
    if r.user.login == login && relevantState r.state then
      Option.some (tail.getD r.state)
    else tail

/-- Specification-side description of a reviewer's final vote: the latest
meaningful state recorded for `login`, with a trailing `DISMISSED`
deleting the vote entirely (and empty logins never voting). -/
def lastVote (reviews : List Review) (login : String) : Option String :=
  if login == "" then Option.none
  else
    match lastEntry login reviews with
    | Option.some s => if s == "DISMISSED" then Option.none else Option.some s
    | Option.none => Option.none

/-- Per-item network outcomes for the open-PR fetch swarm: the four client
calls made inside one `pollAllPRs` work item (`GetPullRequest`,
`GetCheckRuns`, `GetCommitStatus`, `GetPullRequestReviews`); `Option.none`
models a failed call. -/
structure PRFetchEnv where
  getPullRequest : SearchItem → Option PullRequest
  getCheckRuns : SearchItem → Option CheckRunsResponse
  getCommitStatus : SearchItem → Option CombinedStatus
  getReviews : SearchItem → Option (List Review)

/-- The merge of legacy commit statuses into a check-runs response done
inside `pollAllPRs` (`pr_status.go`): each status is adapted with
`statusToCheckRun` and appended, bumping `TotalCount`. -/
def appendStatuses (checkRuns : CheckRunsResponse) (statuses : List CommitStatus) :
    CheckRunsResponse :=
  { totalCount := checkRuns.totalCount + statuses.length
    checkRuns := checkRuns.checkRuns ++ statuses.map statusToCheckRun }

/-- The body of one `pollAllPRs` work item (`pr_status.go`): build the base
info from the search item, default the status to `none`, and refine both
from whichever of the per-item fetches succeed. -/
def fetchOnePR (env : PRFetchEnv) (item : SearchItem) (owner repo : String) :
    PRStatus × PRInfo :=
  let info0 : PRInfo :=
    { owner := owner, repo := repo, number := item.number, title := item.title,
      url := item.htmlURL, createdAt := item.createdAt, branch := "",
      reviewState := PRReviewState.none, reviews := [], additions := 0,
      deletions := 0, checkRuns := [] }
  match env.getPullRequest item with
  | Option.none => (PRStatus.none, info0)
  | Option.some pr =>
    let info1 := { info0 with
      branch := pr.head.ref
      additions := pr.additions
      deletions := pr.deletions }
    let stInfo :=
      match env.getCheckRuns item with
      | Option.none => (PRStatus.none, info1)
      | Option.some cr0 =>
        let cr := match env.getCommitStatus item with
          | Option.some cs => appendStatuses cr0 cs.statuses
          | Option.none => cr0
        (computeAggregateStatus cr, { info1 with checkRuns := cr.checkRuns })
    match env.getReviews item with
    | Option.none => stInfo
    | Option.some revs =>
      (stInfo.1, { stInfo.2 with
        reviewState := computeReviewState revs
        reviews := revs })

/-- One work item of the `pollAllPRs` fan-out (`pr_status.go`): skip the
item when its repository URL does not parse, otherwise store its status
and info under its key and emit one progress event; `total` is the full
item count captured before the swarm starts. -/
def pollStep (env : PRFetchEnv) (total : Nat)
    (acc : List (String × PRStatus) × List (String × PRInfo) × List LoadingProgress)
    (item : SearchItem) :
    List (String × PRStatus) × List (String × PRInfo) × List LoadingProgress :=
  let ownerRepo := parseRepoURL item.repositoryURL
  if ownerRepo.1 == "" || ownerRepo.2 == "" then acc
  else
    let key := PRKey ownerRepo.1 ownerRepo.2 item.number
    let statusInfo := fetchOnePR env item ownerRepo.1 ownerRepo.2
    (insertKV acc.1 key statusInfo.1, insertKV acc.2.1 key statusInfo.2,
     acc.2.2 ++ [{ step := LoadingStep.pullRequests,
                   current := acc.2.2.length + 1, total := total,
                   done := false }])

/-- The fan-out loop of `pollAllPRs` (`pr_status.go`) over the searched
items, modelled sequentially (per-item results are joined into maps, so the
concurrent completion order only permutes progress events and map
insertions of distinct keys). -/
def pollItems (env : PRFetchEnv) (items : List SearchItem) :
    List (String × PRStatus) × List (String × PRInfo) × List LoadingProgress :=
  items.foldl (pollStep env items.length) ([], [], [])

/-- The map key a work item ends up stored under. -/
def itemKey (it : SearchItem) : String :=
  PRKey (parseRepoURL it.repositoryURL).1 (parseRepoURL it.repositoryURL).2 it.number

/-- Items contributed by one source of `SearchUserOpenPRs` (`client.go`):
a failed source contributes nothing. -/
def sourceItems (r : Except Unit (List SearchItem)) : List SearchItem :=
  match r with
  | Except.ok its => its
  | Except.error _ => []

/-- The deduplication loop of `SearchUserOpenPRs` (`client.go`): keep the
first occurrence of each HTML URL, tracking seen URLs. -/
def dedupGo : List SearchItem → List String → List SearchItem
  | [], _ => []
  | it :: rest, seen =>
    if seen.contains it.htmlURL then dedupGo rest seen
    else it :: dedupGo rest (it.htmlURL :: seen)

/-- Model of `SearchUserOpenPRs` from `client.go`: merge the `/user/issues`
source and the search-API source (each `Except.error` contributes nothing),
deduplicating by HTML URL, and fail when the merged list is empty. -/
def SearchUserOpenPRs (ur sr : Except Unit (List SearchItem)) :
    Except Unit (List SearchItem) :=
  let allItems := dedupGo (sourceItems ur ++ sourceItems sr) []
  if allItems.isEmpty then Except.error () else Except.ok allItems

/-- A sample PR info record, used to instantiate theorems. -/
def sampleInfo : PRInfo :=
  { owner := "o", repo := "r", number := 1, title := "t", url := "u",
    createdAt := 0, branch := "b", reviewState := PRReviewState.none,
    reviews := [], additions := 0, deletions := 0, checkRuns := [] }

/-- A sample open-PR search item, used to instantiate theorems. -/
def sampleItem : SearchItem :=
  { number := 1, title := "t", htmlURL := "https://github.com/o/r/pull/1",
    user := { login := "octocat" }, createdAt := 5, closedAt := Option.none,
    pullRequestRefURL := "x", repositoryURL := "https://api.github.com/repos/o/r" }

/-- A sample comment detail, used to instantiate theorems. -/
def sampleDetail : CommentDetail := { body := "d" }

/-- A sample notification whose latest-comment URL is `u`, used to
instantiate theorems. -/
def sampleNotification : Notification :=
  { id := "n1", subject := { title := "t", url := "s", latestCommentURL := "u" } }

/-- A work item whose repository URL does not parse, used to instantiate
theorems. -/
def badItem : SearchItem :=
  { number := 2, title := "x", htmlURL := "h", user := { login := "u" },
    createdAt := 0, closedAt := Option.none, pullRequestRefURL := "",
    repositoryURL := "bad" }

/-- An environment in which every per-item fetch fails, used to instantiate
theorems. -/
def failEnv : PRFetchEnv :=
  { getPullRequest := fun _ => Option.none, getCheckRuns := fun _ => Option.none,
    getCommitStatus := fun _ => Option.none, getReviews := fun _ => Option.none }

/-- Model of `pollAllPRs` from `pr_status.go`: search the user's open PRs
(propagating a search failure as the function's own failure), then run the
fetch swarm over the items. -/
def pollAllPRs (env : PRFetchEnv) (ur sr : Except Unit (List SearchItem)) :
    Except Unit (List (String × PRStatus) × List (String × PRInfo) × List LoadingProgress) :=
  match SearchUserOpenPRs ur sr with
  | Except.error _ => Except.error ()
  | Except.ok items => Except.ok (pollItems env items)

/-- Model of `isBot` from `org.go`: lower-case the login, then test the
`[bot]` / `-bot` suffixes and the known-bot set. Strings are handled as
their character lists, matching Go's handling of these ASCII logins. -/
def isBot (login : String) : Bool :=
  let lower : String := ⟨login.data.map Char.toLower⟩
  "[bot]".data.isSuffixOf lower.data || "-bot".data.isSuffixOf lower.data ||
    ["dependabot", "renovate", "greenkeeper", "snyk-bot", "codecov",
     "coveralls"].contains lower

/-- The merged-PR record built by `FetchOrgActivity` (`org.go`) from a
search item. -/
def toMergedRec (item : SearchItem) : MergedPRInfo :=
  let ownerRepo := parseRepoURL item.repositoryURL
  { owner := ownerRepo.1, repo := ownerRepo.2, number := item.number,
    title := item.title, url := item.htmlURL, mergedAt := item.closedAt.getD 0 }

/-- The open-PR record built by `FetchOrgActivity` (`org.go`) from a search
item; no merge time is set. -/
def toOpenRec (item : SearchItem) : MergedPRInfo :=
  let ownerRepo := parseRepoURL item.repositoryURL
  { owner := ownerRepo.1, repo := ownerRepo.2, number := item.number,
    title := item.title, url := item.htmlURL, mergedAt := 0 }

/-- A fresh, empty activity entry for a login, as created by the bucketing
loops of `FetchOrgActivity` on an author's first appearance. -/
def emptyActivity (login : String) : OrgMemberActivity :=
  { login := login, mergedPRs := [], openPRs := [] }

/-- Update the activity entry of `login` in place, or append a fresh entry
for it — the model of the Go `activity` map of `FetchOrgActivity` keyed by
author login, kept in first-appearance order. -/
def updateActivity (acc : List OrgMemberActivity) (login : String)
    (f : OrgMemberActivity → OrgMemberActivity) : List OrgMemberActivity :=
  if acc.any (fun a => a.login == login) then
    acc.map (fun a => if a.login == login then f a else a)
  else acc ++ [f (emptyActivity login)]

/-- Lookup of an activity entry by login, the model of indexing the Go
`activity` map of `FetchOrgActivity`. -/
def lookupAct : List OrgMemberActivity → String → Option OrgMemberActivity
  | [], _ => Option.none
  | a :: rest, l => if a.login == l then Option.some a else lookupAct rest l

/-- Logins of an activity list are pairwise distinct (the Go map cannot
hold one login twice). -/
def nodupLogins (acc : List OrgMemberActivity) : Prop :=
  (acc.map OrgMemberActivity.login).Nodup

/-- Append one merged-PR record to an author's entry (`FetchOrgActivity`,
merged-items loop). -/
def appendMergedRec (item : SearchItem) (a : OrgMemberActivity) : OrgMemberActivity :=
  { a with mergedPRs := a.mergedPRs ++ [toMergedRec item] }

/-- Append one open-PR record to an author's entry (`FetchOrgActivity`,
open-items loop). -/
def appendOpenRec (item : SearchItem) (a : OrgMemberActivity) : OrgMemberActivity :=
  { a with openPRs := a.openPRs ++ [toOpenRec item] }

/-- One iteration of either bucketing loop of `FetchOrgActivity`
(`org.go`): skip empty-login and bot authors, otherwise apply the given
record-appending update to the author's entry. -/
def orgStep (g : SearchItem → OrgMemberActivity → OrgMemberActivity)
    (acc : List OrgMemberActivity) (item : SearchItem) : List OrgMemberActivity :=
  if item.user.login == "" || isBot item.user.login then acc
  else updateActivity acc item.user.login (g item)

/-- The merged-items bucketing loop of `FetchOrgActivity` (`org.go`). -/
def addMerged : List OrgMemberActivity → SearchItem → List OrgMemberActivity :=
  orgStep appendMergedRec

/-- The open-items bucketing loop of `FetchOrgActivity` (`org.go`). -/
def addOpen : List OrgMemberActivity → SearchItem → List OrgMemberActivity :=
  orgStep appendOpenRec

/-- The final activity entry of an author: the merged and open search items
the author contributed, mapped to their records. -/
def activityEntry (mergedItems openItems : List SearchItem) (l : String) :
    OrgMemberActivity :=
  { login := l,
    mergedPRs := (mergedItems.filter (fun it => it.user.login == l)).map toMergedRec,
    openPRs := (openItems.filter (fun it => it.user.login == l)).map toOpenRec }

/-- Insert into a list that is sorted by descending merged-PR count,
keeping it sorted — the model of the final `sort.Slice` of
`FetchOrgActivity` with `len(MergedPRs)` descending. -/
def insertByMerged (a : OrgMemberActivity) :
    List OrgMemberActivity → List OrgMemberActivity
  | [] => [a]
  | b :: rest =>
    if b.mergedPRs.length < a.mergedPRs.length then a :: b :: rest
    else b :: insertByMerged a rest

/-- Sorting by descending merged-PR count (the content of the final
`sort.Slice` of `FetchOrgActivity`; the Go sort is unstable, so only the
sortedness and the multiset of entries are meaningful). -/
def sortByMergedDesc (l : List OrgMemberActivity) : List OrgMemberActivity :=
  l.foldr insertByMerged []

/-- Model of the aggregation core of `FetchOrgActivity` from `org.go`,
taking the two already-fetched search result sets. The member roster is
fetched by the Go function and turned into `memberSet`, but that set is
never consulted when bucketing, so the roster is not a parameter here;
bucket merged then open items by author login, drop entries with no
activity (none exist, but the Go code filters anyway), and sort by
descending merged-PR count. -/
def FetchOrgActivity (mergedItems openItems : List SearchItem) :
    List OrgMemberActivity :=
  let activity := openItems.foldl addOpen (mergedItems.foldl addMerged [])
  let result := activity.filter
    (fun a => decide (0 < a.mergedPRs.length) || decide (0 < a.openPRs.length))
  sortByMergedDesc result

/-- One counter bump in the weekly-backfill loop of `poll` (`poller.go`). -/
def bumpWeek (m : List (String × Nat)) (k : String) : List (String × Nat) :=
  match alookup m k with
  | Option.some v => insertKV m k (v + 1)
  | Option.none => insertKV m k 1

/-- The weekly-backfill counting loop of `poll` (`poller.go`): bucket the
merged PRs by the ISO-week key of their merge time, skipping zero merge
times; the ISO-week computation itself (`time.ISOWeek`) is abstracted as
the `isoWeekKey` environment function on timestamps. -/
def weeklyCounts (isoWeekKey : Nat → String) (merged : List MergedPRInfo) :
    List (String × Nat) :=
  merged.foldl
    (fun acc pr => if pr.mergedAt == 0 then acc else bumpWeek acc (isoWeekKey pr.mergedAt))
    []

/-- Cross-cycle state of the `Poller` (`poller.go`): the retained
status/info baseline and the per-URL comment-detail cache. -/
structure PollerState where
  prStatuses : List (String × PRStatus)
  prInfos : List (String × PRInfo)
  commentDetails : List (String × CommentDetail)
deriving DecidableEq, Repr

/-- Result of one poll cycle (`PollResult` in `poller.go`); the `error`
flag models a non-nil `Error` field. -/
structure PollResult where
  notifications : List Notification
  prStatuses : List (String × PRStatus)
  prInfos : List (String × PRInfo)
  prChanges : List PRStatusChange
  mergedPRs : List MergedPRInfo
  weeklyMergedCounts : List (String × Nat)
  commentDetails : List (String × CommentDetail)
  error : Bool
deriving DecidableEq, Repr

/-- Outcomes of the independent fetch phases of one poll cycle
(`poll` in `poller.go`); each `Except.error` models that phase failing. -/
structure PollEnv where
  notifRes : Except Unit (List Notification)
  prRes : Except Unit (List (String × PRStatus) × List (String × PRInfo))
  mergedRes : Except Unit (List MergedPRInfo)
  weeklyRes : Except Unit (List MergedPRInfo)
  commentFetch : String → Option CommentDetail
  isoWeekKey : Nat → String

/-- Model of `enrichNotifications` from `poller.go`. An empty notification
list returns immediately with the cache untouched. Otherwise: cache hits
are looked up per notification with a non-empty `LatestCommentURL`, stale
cache entries (whose URL is no longer the comment URL of any current
notification) are evicted, the misses are fetched, and successful fetches
are stored back into the cache and into the per-notification result. -/
def enrichNotifications (cache : List (String × CommentDetail))
    (notifications : List Notification) (fetch : String → Option CommentDetail) :
    List (String × CommentDetail) × List (String × CommentDetail) :=
  if notifications.isEmpty then (cache, [])
  else
    let withURL := notifications.filter (fun n => n.subject.latestCommentURL != "")
    let activeURLs := withURL.map (fun n => n.subject.latestCommentURL)
    let cacheHits := withURL.filterMap
      (fun n => (alookup cache n.subject.latestCommentURL).map (fun d => (n.id, d)))
    let toFetch := withURL.filter
      (fun n => (alookup cache n.subject.latestCommentURL).isNone)
    let evicted := cache.filter (fun kv => activeURLs.contains kv.1)
    let fetched := toFetch.filterMap
      (fun n => (fetch n.subject.latestCommentURL).map
        (fun d => (n.id, n.subject.latestCommentURL, d)))
    let newCache := fetched.foldl (fun c f => insertKV c f.2.1 f.2.2) evicted
    (newCache, cacheHits ++ fetched.map (fun f => (f.1, f.2.2)))

/-- The `PRStatusChange` record built by the diff loop of `poll`
(`poller.go`) from the key's info entry and the two statuses. -/
def mkStatusChange (info : PRInfo) (oldStatus newStatus : PRStatus) : PRStatusChange :=
  { owner := info.owner, repo := info.repo, number := info.number,
    title := info.title, url := info.url, oldStatus := oldStatus,
    newStatus := newStatus }

/-- One step of the status-diff loop of `poll` (`poller.go`). -/
def diffStep (prev : List (String × PRStatus)) (newInfos : List (String × PRInfo))
    (acc : List PRStatusChange) (kv : String × PRStatus) : List PRStatusChange :=
  let oldStatus := (alookup prev kv.1).getD PRStatus.none
  if oldStatus != kv.2 then
    match alookup newInfos kv.1 with
    | Option.some info => acc ++ [mkStatusChange info oldStatus kv.2]
    | Option.none => acc
  else acc

/-- The status-diff loop of `poll` (`poller.go`): for each key of the new
status map, the old status defaults to `none` when the key is new; a change
is recorded only when the statuses differ and the key has an info entry. -/
def computePRChanges (prev newStatuses : List (String × PRStatus))
    (newInfos : List (String × PRInfo)) : List PRStatusChange :=
  newStatuses.foldl (diffStep prev newInfos) []

/-- Model of one cycle of `poll` from `poller.go`, as a function of the
poller state, the phase outcomes, and the cycle kind. When both the
notification fetch and the PR fetch fail the cycle returns a fatal result
and leaves the state untouched. Otherwise failed phases contribute nothing:
notifications default to the empty list, a failed merged-PR search leaves
`mergedPRs` empty, a failed backfill leaves the weekly counts empty, and a
failed PR fetch leaves the status/info maps and baseline untouched. On a
first poll the diff step is skipped. -/
def poll (st : PollerState) (env : PollEnv) (firstPoll : Bool) :
    PollerState × PollResult :=
  match env.notifRes, env.prRes with
  | Except.error _, Except.error _ =>
    (st, { notifications := [], prStatuses := [], prInfos := [], prChanges := [],
           mergedPRs := [], weeklyMergedCounts := [], commentDetails := [],
           error := true })
  | notifRes, prRes =>
    let notifications := match notifRes with
      | Except.ok ns => ns
      | Except.error _ => []
    let enriched := enrichNotifications st.commentDetails notifications env.commentFetch
    let mergedPRs := match env.mergedRes with
      | Except.ok m => m
      | Except.error _ => []
    let weekly := if firstPoll then
        match env.weeklyRes with
        | Except.ok m => weeklyCounts env.isoWeekKey m
        | Except.error _ => []
      else []
    match prRes with
    | Except.error _ =>
      ({ st with commentDetails := enriched.1 },
       { notifications := notifications, prStatuses := [], prInfos := [],
         prChanges := [], mergedPRs := mergedPRs, weeklyMergedCounts := weekly,
         commentDetails := enriched.2, error := false })
    | Except.ok prMaps =>
      let changes := if firstPoll then []
        else computePRChanges st.prStatuses prMaps.1 prMaps.2
      ({ prStatuses := prMaps.1, prInfos := prMaps.2, commentDetails := enriched.1 },
       { notifications := notifications, prStatuses := prMaps.1,
         prInfos := prMaps.2, prChanges := changes, mergedPRs := mergedPRs,
         weeklyMergedCounts := weekly, commentDetails := enriched.2,
         error := false })

/-- One page fetch plus the continuation decision of `searchAllPages`
(`org.go`), with explicit fuel (the remaining page budget out of 10);
returns the accumulated items and the list of pages actually requested. -/
def searchPagesFrom (pages : Nat → SearchResult) :
    Nat → Nat → List SearchItem → List SearchItem × List Nat
  | 0, _, acc => (acc, [])
  | fuel + 1, page, acc =>
    let r := pages page
    let acc2 := acc ++ r.items
    if r.totalCount ≤ acc2.length || r.items.length < 100 then (acc2, [page])
    else
      let next := searchPagesFrom pages fuel (page + 1) acc2
      (next.1, page :: next.2)

/-- Model of `searchAllPages` from `org.go`: request pages starting at 1,
with at most 10 requests; the environment function `pages` gives the
server's (successful) response per page number. -/
def searchAllPages (pages : Nat → SearchResult) : List SearchItem × List Nat :=
  searchPagesFrom pages 10 1 []

/-- Items accumulated by `searchAllPages` through page `p` (pages 1‥`p`
concatenated in order). -/
def accThrough (pages : Nat → SearchResult) (p : Nat) : List SearchItem :=
  (List.range' 1 p).flatMap (fun q => (pages q).items)

/-- The continuation condition of `searchAllPages` after receiving page
`p`: the page was full-sized and the accumulated count is still below the
server-declared total of that response. -/
def contCond (pages : Nat → SearchResult) (p : Nat) : Prop :=
  (pages p).items.length = 100 ∧ (accThrough pages p).length < (pages p).totalCount

/-- Deciding `<` on strings agrees with deciding `<` on their character
lists; used to evaluate string comparisons concretely. -/
theorem decide_string_lt (a b : String) :
    decide (a < b) = decide (a.toList < b.toList) :=
  decide_eq_decide.mpr String.lt_iff_toList_lt

theorem accThrough_zero (pages : Nat → SearchResult) : accThrough pages 0 = [] := rfl

theorem accThrough_succ (pages : Nat → SearchResult) (d : Nat) :
    accThrough pages (d + 1) = accThrough pages d ++ (pages (d + 1)).items := by
  unfold accThrough
  rw [show List.range' 1 (d + 1) = List.range' 1 d ++ [1 + d] by
    simpa using @List.range'_concat 1 1 d]
  simp [Nat.add_comm 1 d]

theorem searchPagesFrom_stop (pages : Nat → SearchResult) (fuel page : Nat)
    (acc : List SearchItem)
    (h : (pages page).totalCount ≤ (acc ++ (pages page).items).length
      ∨ (pages page).items.length < 100) :
    searchPagesFrom pages (fuel + 1) page acc = (acc ++ (pages page).items, [page]) := by
  simp only [searchPagesFrom]
  rw [if_pos]
  simpa using h

theorem searchPagesFrom_cont (pages : Nat → SearchResult) (fuel page : Nat)
    (acc : List SearchItem)
    (h : ¬ ((pages page).totalCount ≤ (acc ++ (pages page).items).length
      ∨ (pages page).items.length < 100)) :
    searchPagesFrom pages (fuel + 1) page acc =
      ((searchPagesFrom pages fuel (page + 1) (acc ++ (pages page).items)).1,
       page :: (searchPagesFrom pages fuel (page + 1) (acc ++ (pages page).items)).2) := by
  simp only [searchPagesFrom]
  rw [if_neg]
  simpa using h

theorem searchPagesFrom_spec (pages : Nat → SearchResult)
    (h100 : ∀ p, (pages p).items.length ≤ 100) :
    ∀ fuel d, 1 ≤ fuel →
      ∃ k, 1 ≤ k ∧ k ≤ fuel ∧
        searchPagesFrom pages fuel (d + 1) (accThrough pages d) =
          (accThrough pages (d + k), List.range' (d + 1) k) ∧
        (∀ i, d + 1 ≤ i → i < d + k → contCond pages i) ∧
        (k < fuel → ¬ contCond pages (d + k)) := by
  intro fuel
  induction fuel with
  | zero => intro d h; exact absurd h (by omega)
  | succ fuel ih =>
    intro d _
    have hacc : accThrough pages d ++ (pages (d + 1)).items = accThrough pages (d + 1) :=
      (accThrough_succ pages d).symm
    by_cases hstop : (pages (d + 1)).totalCount ≤ (accThrough pages (d + 1)).length
        ∨ (pages (d + 1)).items.length < 100
    · refine ⟨1, le_refl 1, by omega, ?_, ?_, ?_⟩
      · rw [searchPagesFrom_stop pages fuel (d + 1) _ (by rw [hacc]; exact hstop), hacc]
        simp
      · intro i h1 h2; omega
      · intro _
        rintro ⟨hfull, hlt⟩
        rcases hstop with h | h <;> omega
    · have hcont1 : contCond pages (d + 1) := by
        push_neg at hstop
        exact ⟨by have := h100 (d + 1); omega, hstop.1⟩
      have hstop' : ¬ ((pages (d + 1)).totalCount
          ≤ (accThrough pages d ++ (pages (d + 1)).items).length
          ∨ (pages (d + 1)).items.length < 100) := by rw [hacc]; exact hstop
      cases fuel with
      | zero =>
        refine ⟨1, le_refl 1, le_refl 1, ?_, ?_, ?_⟩
        · rw [searchPagesFrom_cont pages 0 (d + 1) _ hstop', hacc]
          simp [searchPagesFrom]
        · intro i h1 h2; omega
        · intro h; omega
      | succ fuel' =>
        obtain ⟨k, hk1, hkf, heq, hc, hs⟩ := ih (d + 1) (by omega)
        refine ⟨k + 1, by omega, by omega, ?_, ?_, ?_⟩
        · rw [searchPagesFrom_cont pages (fuel' + 1) (d + 1) _ hstop', hacc, heq]
          rw [show d + 1 + k = d + (k + 1) by omega,
            show List.range' (d + 1) (k + 1) = (d + 1) :: List.range' (d + 1 + 1) k from
              List.range'_succ (d + 1) k 1]
        · intro i h1 h2
          rcases Nat.eq_or_lt_of_le h1 with h | h
          · exact h ▸ hcont1
          · exact hc i (by omega) (by omega)
        · intro hlt
          rw [show d + (k + 1) = d + 1 + k by omega]
          exact hs (by omega)

/-- C8: `searchAllPages` requests consecutive pages starting at page 1,
never more than 10; the next page is requested exactly when the
just-received page was full-sized (100 items) and the accumulated item
count is still below that response's server-declared total; the returned
slice is the concatenation of the fetched pages' items in order. -/
theorem searchAllPages_spec (pages : Nat → SearchResult)
    (h100 : ∀ p, (pages p).items.length ≤ 100) :
    ∃ k, 1 ≤ k ∧ k ≤ 10 ∧
      (searchAllPages pages).2 = List.range' 1 k ∧
      (searchAllPages pages).1 = accThrough pages k ∧
      (∀ i, 1 ≤ i → i < k → contCond pages i) ∧
      (k < 10 → ¬ contCond pages k) := by
  obtain ⟨k, h1, h10, heq, hc, hs⟩ := searchPagesFrom_spec pages h100 10 0 (by omega)
  simp only [Nat.zero_add] at heq hc hs
  refine ⟨k, h1, h10, ?_, ?_, hc, hs⟩
  · rw [show searchAllPages pages = searchPagesFrom pages 10 1 [] from rfl,
      show ([] : List SearchItem) = accThrough pages 0 from rfl, heq]
  · rw [show searchAllPages pages = searchPagesFrom pages 10 1 [] from rfl,
      show ([] : List SearchItem) = accThrough pages 0 from rfl, heq]

/-- C8 witness: on a server whose every page is empty, the theorem applies
and exactly page 1 is requested, with an empty result. -/
theorem searchAllPages_spec_witness :
    (searchAllPages (fun _ => ⟨0, []⟩)).2 = List.range' 1 1
      ∧ (searchAllPages (fun _ => ⟨0, []⟩)).1 = [] := by
  obtain ⟨k, h1, h10, hreq, hres, hcont, _⟩ :=
    searchAllPages_spec (fun _ => ⟨0, []⟩) (fun p => by simp)
  have hk : k = 1 := by
    by_contra hne
    obtain ⟨hfull, _⟩ := hcont 1 (by omega) (by omega)
    simp at hfull
  subst hk
  refine ⟨hreq, ?_⟩
  rw [hres]
  rfl

/-- C1: `computeAggregateStatus` returns `none` on zero runs, else `pending`
when some run is queued or in progress, else `failure` when some run
concluded failure / cancelled / timed out, else `success`. -/
theorem computeAggregateStatus_spec (runs : List CheckRun) :
    computeAggregateStatus ⟨runs.length, runs⟩ =
      if runs = [] then PRStatus.none
      else if ∃ cr ∈ runs, cr.status = "queued" ∨ cr.status = "in_progress" then
        PRStatus.pending
      else if ∃ cr ∈ runs, cr.conclusion = "failure" ∨ cr.conclusion = "cancelled"
          ∨ cr.conclusion = "timed_out" then
        PRStatus.failure
      else PRStatus.success := by
  simp only [computeAggregateStatus, List.any_eq_true, Bool.or_eq_true, beq_iff_eq,
    Nat.beq_eq_true_eq, List.length_eq_zero, or_assoc]

/-- C7: pruning retains exactly the entries whose key is not lexicographically
below the cutoff; concretely, keys `2024-W01`‥`2024-W40` pruned at the key of
26 weeks before `2024-W40` (that is, `2024-W14`) retain exactly
`2024-W14`‥`2024-W40`. -/
theorem pruneWeeks_spec :
    (∀ (weeks : List (String × Nat)) (cutoffKey : String) (k : String) (v : Nat),
      (k, v) ∈ pruneWeeks weeks cutoffKey ↔ ((k, v) ∈ weeks ∧ ¬ k < cutoffKey)) ∧
    pruneWeeks ((List.range 40).map (fun i => (WeekKey 2024 (i + 1), 1))) (WeekKey 2024 14)
      = (List.range 27).map (fun i => (WeekKey 2024 (i + 14), 1)) := by
  constructor
  · intro weeks cutoffKey k v
    simp [pruneWeeks, List.mem_filter]
  · simp only [pruneWeeks, decide_string_lt]
    decide

theorem dedupGo_nil_iff (l : List SearchItem) : dedupGo l [] = [] ↔ l = [] := by
  cases l with
  | nil => simp [dedupGo]
  | cons x rest => simp [dedupGo]

/-- C10: the merged open-PR search fails exactly when the deduplicated
union of the two sources is empty — including when both sources succeed
with zero items — and otherwise returns the URL-deduplicated union;
consequently `pollAllPRs` reports a zero-open-PR user as a PR-fetch
failure. -/
theorem SearchUserOpenPRs_spec :
    (∀ ur sr : Except Unit (List SearchItem),
      (SearchUserOpenPRs ur sr).isOk = false
        ↔ (sourceItems ur = [] ∧ sourceItems sr = [])) ∧
    (∀ ur sr : Except Unit (List SearchItem),
      sourceItems ur ≠ [] ∨ sourceItems sr ≠ [] →
        SearchUserOpenPRs ur sr
          = Except.ok (dedupGo (sourceItems ur ++ sourceItems sr) [])) ∧
    (∀ env : PRFetchEnv,
      pollAllPRs env (Except.ok []) (Except.ok []) = Except.error ()) := by
  refine ⟨?_, ?_, ?_⟩
  · intro ur sr
    by_cases h : dedupGo (sourceItems ur ++ sourceItems sr) [] = []
    · rw [dedupGo_nil_iff, List.append_eq_nil] at h
      simp [SearchUserOpenPRs, dedupGo_nil_iff, h.1, h.2, dedupGo, Except.isOk, Except.toBool]
    · have hne : ¬ (sourceItems ur ++ sourceItems sr) = [] := by
        intro hc; exact h ((dedupGo_nil_iff _).mpr hc)
      rw [List.append_eq_nil] at hne
      simp only [SearchUserOpenPRs, List.isEmpty_iff, if_neg h]
      constructor
      · intro hc; simp [Except.isOk, Except.toBool] at hc
      · intro hc; exact absurd (And.intro hc.1 hc.2) hne
  · intro ur sr h
    have hne : (sourceItems ur ++ sourceItems sr) ≠ [] := by
      intro hc
      rw [List.append_eq_nil] at hc
      rcases h with h | h <;> [exact h hc.1; exact h hc.2]
    have h2 : ¬ dedupGo (sourceItems ur ++ sourceItems sr) [] = [] := by
      intro hc; exact hne ((dedupGo_nil_iff _).mp hc)
    simp only [SearchUserOpenPRs, List.isEmpty_iff, if_neg h2]
  · intro env
    simp [pollAllPRs, SearchUserOpenPRs, sourceItems, dedupGo]

/-- C10 witness: one source succeeding with one item and the other failing
yields that item. -/
theorem SearchUserOpenPRs_spec_witness :
    SearchUserOpenPRs (Except.ok [sampleItem]) (Except.error ())
      = Except.ok [sampleItem] := by
  have h := SearchUserOpenPRs_spec.2.1 (Except.ok [sampleItem]) (Except.error ())
    (Or.inl (by simp [sourceItems]))
  simpa [sourceItems, dedupGo] using h

/-- C4: one poll cycle reports a fatal error exactly when both the
notification fetch and the PR fetch failed; a failed merged-PR search or
weekly backfill contributes no data; and whenever at least one of the two
main fetches succeeds the cycle completes without error, carrying every
phase's successful data and empty data for failed phases. -/
theorem poll_error_spec (st : PollerState) (env : PollEnv) (firstPoll : Bool) :
    ((poll st env firstPoll).2.error = true
      ↔ (env.notifRes.isOk = false ∧ env.prRes.isOk = false)) ∧
    (env.mergedRes.isOk = false → (poll st env firstPoll).2.mergedPRs = []) ∧
    ((poll st env firstPoll).2.error = false → env.weeklyRes.isOk = false →
      (poll st env firstPoll).2.weeklyMergedCounts = []) ∧
    ((env.notifRes.isOk = true ∨ env.prRes.isOk = true) →
      ((poll st env firstPoll).2.error = false ∧
       (∀ ns, env.notifRes = Except.ok ns →
         (poll st env firstPoll).2.notifications = ns) ∧
       (∀ pm, env.prRes = Except.ok pm →
         (poll st env firstPoll).2.prStatuses = pm.1
           ∧ (poll st env firstPoll).2.prInfos = pm.2) ∧
       (∀ m, env.mergedRes = Except.ok m →
         (poll st env firstPoll).2.mergedPRs = m) ∧
       (env.prRes.isOk = false →
         (poll st env firstPoll).2.prStatuses = []
           ∧ (poll st env firstPoll).2.prInfos = []))) := by
  obtain ⟨nr, pr, mr, wr, cf, iso⟩ := env
  cases nr <;> cases pr <;> cases mr <;> cases wr <;>
    simp [poll, Except.isOk, Except.toBool]

/-- C4 witness: with only the notification fetch succeeding (all other
phases failing), the cycle completes without error and with empty data. -/
theorem poll_error_spec_witness :
    (poll ⟨[], [], []⟩
      ⟨Except.ok [], Except.error (), Except.error (), Except.error (),
        fun _ => Option.none, fun _ => ""⟩ true).2.error = false := by
  have h := poll_error_spec ⟨[], [], []⟩
    ⟨Except.ok [], Except.error (), Except.error (), Except.error (),
      fun _ => Option.none, fun _ => ""⟩ true
  exact (h.2.2.2 (Or.inl (by simp [Except.isOk, Except.toBool]))).1

theorem alookup_nil {α : Type} (q : String) :
    alookup ([] : List (String × α)) q = Option.none := rfl

theorem alookup_cons {α : Type} (kv : String × α) (rest : List (String × α)) (q : String) :
    alookup (kv :: rest) q = if kv.1 == q then Option.some kv.2 else alookup rest q := rfl

theorem alookup_filter_ne {α : Type} (m : List (String × α)) (k q : String) :
    alookup (m.filter (fun kv => kv.1 != k)) q
      = if q = k then Option.none else alookup m q := by
  induction m with
  | nil => simp [alookup_nil]
  | cons kv rest ih =>
    rw [List.filter_cons]
    by_cases h1 : kv.1 = k
    · have hb : (kv.1 != k) = false := by simp [h1]
      rw [hb]
      simp only [Bool.false_eq_true, if_false]
      rw [ih]
      rcases eq_or_ne q k with h2 | h2
      · simp [h2]
      · have hne : kv.1 ≠ q := fun hc => h2 (hc ▸ h1)
        simp [h2, alookup_cons, hne]
    · have hb : (kv.1 != k) = true := by simp [h1]
      rw [hb]
      simp only [if_true]
      rw [alookup_cons, alookup_cons, ih]
      rcases eq_or_ne kv.1 q with h2 | h2
      · have hqk : q ≠ k := fun hc => h1 (by rw [h2, hc])
        simp [h2, hqk]
      · simp [h2]

theorem alookup_applyReview (m : List (String × String)) (r : Review) (login : String)
    (h : login ≠ "") :
    alookup (applyReview m r) login =
      if r.user.login == login && relevantState r.state then
        (if r.state == "DISMISSED" then Option.none else Option.some r.state)
      else alookup m login := by
  unfold applyReview relevantState
  by_cases he : r.user.login = ""
  · simp [he, Ne.symm h]
  · by_cases hm : r.state = "APPROVED" ∨ r.state = "CHANGES_REQUESTED" ∨ r.state = "COMMENTED"
    · have hnd : r.state ≠ "DISMISSED" := by
        rcases hm with h1 | h1 | h1 <;> simp [h1]
      rcases eq_or_ne r.user.login login with h2 | h2
      · rcases hm with h1 | h1 | h1 <;>
          simp [he, h1, h2, h, alookup_cons, hnd]
      · rcases hm with h1 | h1 | h1 <;>
          simp [he, h1, h2, h, alookup_cons, alookup_filter_ne, Ne.symm h2, hnd]
    · push_neg at hm
      by_cases hd : r.state = "DISMISSED"
      · rcases eq_or_ne r.user.login login with h2 | h2
        · simp [he, hd, h2, h, alookup_filter_ne, hm.1, hm.2.1, hm.2.2]
        · simp [he, hd, h2, h, alookup_filter_ne, Ne.symm h2, hm.1, hm.2.1, hm.2.2]
      · simp [he, hd, hm.1, hm.2.1, hm.2.2]

theorem foldl_applyReview_alookup (l : List Review) (login : String) (h : login ≠ "") :
    ∀ m, alookup (l.foldl applyReview m) login =
      match lastEntry login l with
      | Option.some s => if s == "DISMISSED" then Option.none else Option.some s
      | Option.none => alookup m login := by
  induction l with
  | nil => intro m; simp [lastEntry]
  | cons r rest ih =>
    intro m
    rw [List.foldl_cons, ih (applyReview m r)]
    by_cases hr : (r.user.login == login && relevantState r.state) = true
    · cases htail : lastEntry login rest with
      | some s => simp [lastEntry, hr, htail]
      | none => simp [lastEntry, hr, htail, alookup_applyReview m r login h]
    · cases htail : lastEntry login rest with
      | some s => simp [lastEntry, hr, htail]
      | none => simp [lastEntry, hr, htail, alookup_applyReview m r login h]

theorem alookup_applyReview_no_empty (m : List (String × String)) (r : Review)
    (h : alookup m "" = Option.none) : alookup (applyReview m r) "" = Option.none := by
  unfold applyReview
  by_cases he : r.user.login = ""
  · simp [he, h]
  · by_cases hm : (r.state == "APPROVED" || r.state == "CHANGES_REQUESTED"
        || r.state == "COMMENTED") = true
    · simp only [he, hm, beq_iff_eq, if_false, if_true]
      rw [alookup_cons, alookup_filter_ne]
      simp [he, Ne.symm he, h]
    · by_cases hd : (r.state == "DISMISSED") = true
      · simp only [he, hm, hd, beq_iff_eq, if_false, if_true, Bool.false_eq_true]
        rw [alookup_filter_ne]
        simp [Ne.symm he, h]
      · simp [he, hm, hd, h]

theorem alookup_latestByUser_empty (reviews : List Review) :
    alookup (latestByUser reviews) "" = Option.none := by
  have : ∀ m, alookup m "" = Option.none →
      alookup (reviews.foldl applyReview m) "" = Option.none := by
    induction reviews with
    | nil => intro m hm; simpa using hm
    | cons r rest ih =>
      intro m hm
      rw [List.foldl_cons]
      exact ih _ (alookup_applyReview_no_empty m r hm)
  exact this [] rfl

theorem alookup_latestByUser (reviews : List Review) (login : String) :
    alookup (latestByUser reviews) login = lastVote reviews login := by
  by_cases h : login = ""
  · subst h
    simp [lastVote, alookup_latestByUser_empty reviews]
  · unfold latestByUser lastVote
    rw [foldl_applyReview_alookup reviews login h []]
    simp [h, alookup_nil]

/-- Keys of an association list are pairwise distinct. -/
def nodupKeys {α : Type} (m : List (String × α)) : Prop :=
  (m.map Prod.fst).Nodup

theorem nodupKeys_filter {α : Type} (m : List (String × α)) (p : String × α → Bool)
    (h : nodupKeys m) : nodupKeys (m.filter p) :=
  ((m.filter_sublist).map Prod.fst).nodup h

theorem nodupKeys_applyReview (m : List (String × String)) (r : Review)
    (h : nodupKeys m) : nodupKeys (applyReview m r) := by
  unfold applyReview
  by_cases he : (r.user.login == "") = true
  · simpa [he] using h
  · by_cases hm : (r.state == "APPROVED" || r.state == "CHANGES_REQUESTED"
        || r.state == "COMMENTED") = true
    · simp only [he, hm, if_true, if_false, Bool.false_eq_true]
      refine List.Nodup.cons ?_ (nodupKeys_filter m _ h)
      intro hc
      simp only [List.map_cons] at hc
      simp only [List.mem_map, List.mem_filter] at hc
      obtain ⟨kv, ⟨_, hpred⟩, hfst⟩ := hc
      simp [hfst] at hpred
    · by_cases hd : (r.state == "DISMISSED") = true
      · simp only [he, hm, hd, if_true, if_false, Bool.false_eq_true]
        exact nodupKeys_filter m _ h
      · simpa [he, hm, hd] using h

theorem nodupKeys_latestByUser (reviews : List Review) :
    nodupKeys (latestByUser reviews) := by
  have : ∀ m, nodupKeys m → nodupKeys (reviews.foldl applyReview m) := by
    induction reviews with
    | nil => intro m hm; simpa using hm
    | cons r rest ih =>
      intro m hm
      rw [List.foldl_cons]
      exact ih _ (nodupKeys_applyReview m r hm)
  exact this [] (by simp [nodupKeys])

theorem alookup_eq_some_of_mem {α : Type} (m : List (String × α)) (k : String) (v : α)
    (hnd : nodupKeys m) (hm : (k, v) ∈ m) : alookup m k = Option.some v := by
  induction m with
  | nil => cases hm
  | cons kv rest ih =>
    rcases List.mem_cons.mp hm with h | h
    · rw [← h, alookup_cons]
      simp
    · have hk : k ∈ rest.map Prod.fst := List.mem_map.mpr ⟨(k, v), h, rfl⟩
      have hne : kv.1 ≠ k := by
        intro hc
        have := (List.nodup_cons.mp hnd).1
        exact this (hc ▸ hk)
      rw [alookup_cons]
      simp only [beq_iff_eq, hne, if_false]
      exact ih (List.nodup_cons.mp hnd).2 h

theorem mem_of_alookup_eq_some {α : Type} (m : List (String × α)) (k : String) (v : α)
    (h : alookup m k = Option.some v) : (k, v) ∈ m := by
  induction m with
  | nil => simp [alookup_nil] at h
  | cons kv rest ih =>
    rw [alookup_cons] at h
    by_cases hk : kv.1 = k
    · simp only [hk, beq_self_eq_true, if_true, Option.some.injEq] at h
      have hkv : kv = (k, v) := Prod.ext_iff.mpr ⟨hk, h⟩
      rw [← hkv]
      exact List.mem_cons_self kv rest
    · simp only [beq_iff_eq, hk, if_false] at h
      exact List.mem_cons_of_mem kv (ih h)

theorem lastEntry_some_mem (login : String) (l : List Review) (s : String)
    (h : lastEntry login l = Option.some s) : ∃ r ∈ l, r.user.login = login := by
  induction l with
  | nil => simp [lastEntry] at h
  | cons r rest ih =>
    by_cases hr : (r.user.login == login && relevantState r.state) = true
    · have hr' := hr
      simp only [Bool.and_eq_true, beq_iff_eq] at hr'
      exact ⟨r, List.mem_cons_self r rest, hr'.1⟩
    · simp only [lastEntry, hr, if_false] at h
      obtain ⟨r', hmem, hlogin⟩ := ih h
      exact ⟨r', List.mem_cons_of_mem r hmem, hlogin⟩

theorem lastVote_some_mem (reviews : List Review) (login s : String)
    (h : lastVote reviews login = Option.some s) : ∃ r ∈ reviews, r.user.login = login := by
  unfold lastVote at h
  by_cases he : login = ""
  · simp [he] at h
  · simp only [beq_iff_eq, he, if_false] at h
    cases hle : lastEntry login reviews with
    | none => rw [hle] at h; cases h
    | some s' => exact lastEntry_some_mem login reviews s' hle

theorem latestByUser_any_iff (reviews : List Review) (s : String) :
    (latestByUser reviews).any (fun kv => kv.2 == s) = true
      ↔ ∃ r ∈ reviews, lastVote reviews r.user.login = Option.some s := by
  constructor
  · intro h
    obtain ⟨kv, hmem, hval⟩ := List.any_eq_true.mp h
    have hval' : kv.2 = s := by simpa using hval
    have hlk : alookup (latestByUser reviews) kv.1 = Option.some kv.2 :=
      alookup_eq_some_of_mem _ _ _ (nodupKeys_latestByUser reviews) hmem
    have hv : lastVote reviews kv.1 = Option.some s := by
      rw [← alookup_latestByUser, hlk, hval']
    obtain ⟨r, hr, hrl⟩ := lastVote_some_mem reviews kv.1 s hv
    exact ⟨r, hr, by rw [hrl]; exact hv⟩
  · rintro ⟨r, _, hv⟩
    have hlk : alookup (latestByUser reviews) r.user.login = Option.some s := by
      rw [alookup_latestByUser]; exact hv
    have hmem := mem_of_alookup_eq_some _ _ _ hlk
    exact List.any_eq_true.mpr ⟨(r.user.login, s), hmem, by simp⟩

/-- C2: `computeReviewState` equals the specification built from each
reviewer's final vote (`lastVote`: the latest meaningful state per login,
deleted by a trailing dismissal): `changes_requested` when any final vote
is `CHANGES_REQUESTED`, else `approved` when any is `APPROVED`, else
`reviewed` when any vote remains, else `none` — in particular the result
depends only on per-reviewer final votes, not on reviewer order. -/
theorem computeReviewState_spec (reviews : List Review) :
    computeReviewState reviews =
      if ∃ r ∈ reviews, lastVote reviews r.user.login = Option.some "CHANGES_REQUESTED" then
        PRReviewState.changesRequested
      else if ∃ r ∈ reviews, lastVote reviews r.user.login = Option.some "APPROVED" then
        PRReviewState.approved
      else if ∃ r ∈ reviews, (lastVote reviews r.user.login).isSome = true then
        PRReviewState.reviewed
      else PRReviewState.none := by
  have hnone : ∀ (hv : ∀ login, lastVote reviews login = Option.none),
      (if ∃ r ∈ reviews, lastVote reviews r.user.login = Option.some "CHANGES_REQUESTED" then
        PRReviewState.changesRequested
      else if ∃ r ∈ reviews, lastVote reviews r.user.login = Option.some "APPROVED" then
        PRReviewState.approved
      else if ∃ r ∈ reviews, (lastVote reviews r.user.login).isSome = true then
        PRReviewState.reviewed
      else PRReviewState.none) = PRReviewState.none := by
    intro hv
    rw [if_neg, if_neg, if_neg]
    · rintro ⟨r, _, hr⟩; rw [hv r.user.login] at hr; simp at hr
    · rintro ⟨r, _, hr⟩; rw [hv r.user.login] at hr; cases hr
    · rintro ⟨r, _, hr⟩; rw [hv r.user.login] at hr; cases hr
  unfold computeReviewState
  by_cases hre : reviews.isEmpty = true
  · have hrev : reviews = [] := List.isEmpty_iff.mp hre
    rw [if_pos hre, hnone]
    intro login
    rw [hrev]
    simp [lastVote, lastEntry]
  · rw [if_neg hre]
    by_cases hme : (latestByUser reviews).isEmpty = true
    · have hm : latestByUser reviews = [] := List.isEmpty_iff.mp hme
      rw [if_pos hme, hnone]
      intro login
      rw [← alookup_latestByUser, hm, alookup_nil]
    · rw [if_neg hme]
      by_cases hcr : (latestByUser reviews).any (fun kv => kv.2 == "CHANGES_REQUESTED") = true
      · rw [if_pos hcr, if_pos ((latestByUser_any_iff reviews "CHANGES_REQUESTED").mp hcr)]
      · have hcr' : ¬ ∃ r ∈ reviews,
            lastVote reviews r.user.login = Option.some "CHANGES_REQUESTED" :=
          fun hc => hcr ((latestByUser_any_iff reviews "CHANGES_REQUESTED").mpr hc)
        rw [if_neg hcr, if_neg hcr']
        by_cases hap : (latestByUser reviews).any (fun kv => kv.2 == "APPROVED") = true
        · rw [if_pos hap, if_pos ((latestByUser_any_iff reviews "APPROVED").mp hap)]
        · have hap' : ¬ ∃ r ∈ reviews,
              lastVote reviews r.user.login = Option.some "APPROVED" :=
            fun hc => hap ((latestByUser_any_iff reviews "APPROVED").mpr hc)
          rw [if_neg hap, if_neg hap', if_pos]
          obtain ⟨kv, hkv⟩ := List.exists_mem_of_ne_nil (latestByUser reviews)
            (fun hc => hme (by rw [hc]; rfl))
          have hlk : alookup (latestByUser reviews) kv.1 = Option.some kv.2 :=
            alookup_eq_some_of_mem _ _ _ (nodupKeys_latestByUser reviews) hkv
          have hv : lastVote reviews kv.1 = Option.some kv.2 := by
            rw [← alookup_latestByUser, hlk]
          obtain ⟨r, hr, hrl⟩ := lastVote_some_mem reviews kv.1 kv.2 hv
          exact ⟨r, hr, by rw [hrl, hv]; rfl⟩

theorem diffStep_acc (prev : List (String × PRStatus)) (ni : List (String × PRInfo)) :
    ∀ (ns : List (String × PRStatus)) (acc : List PRStatusChange),
      ns.foldl (diffStep prev ni) acc = acc ++ ns.foldl (diffStep prev ni) [] := by
  intro ns
  induction ns with
  | nil => intro acc; simp
  | cons kv rest ih =>
    intro acc
    rw [List.foldl_cons, List.foldl_cons, ih (diffStep prev ni acc kv),
      ih (diffStep prev ni [] kv), ← List.append_assoc]
    congr 1
    unfold diffStep
    by_cases h : ((alookup prev kv.1).getD PRStatus.none != kv.2) = true
    · simp only [h, if_true]
      cases alookup ni kv.1 <;> simp
    · simp [h]

theorem computePRChanges_cons (prev : List (String × PRStatus))
    (ni : List (String × PRInfo)) (kv : String × PRStatus)
    (rest : List (String × PRStatus)) :
    computePRChanges prev (kv :: rest) ni
      = diffStep prev ni [] kv ++ computePRChanges prev rest ni := by
  unfold computePRChanges
  rw [List.foldl_cons, diffStep_acc]

theorem mem_computePRChanges (prev : List (String × PRStatus))
    (ni : List (String × PRInfo)) :
    ∀ (ns : List (String × PRStatus)) (c : PRStatusChange),
      c ∈ computePRChanges prev ns ni →
      ∃ kv ∈ ns, ∃ info, alookup ni kv.1 = Option.some info ∧
        c = mkStatusChange info ((alookup prev kv.1).getD PRStatus.none) kv.2 ∧
        (alookup prev kv.1).getD PRStatus.none ≠ kv.2 := by
  intro ns
  induction ns with
  | nil => intro c hc; simp [computePRChanges] at hc
  | cons kv rest ih =>
    intro c hc
    rw [computePRChanges_cons] at hc
    rcases List.mem_append.mp hc with h | h
    · unfold diffStep at h
      by_cases hd : ((alookup prev kv.1).getD PRStatus.none != kv.2) = true
      · rw [if_pos hd] at h
        cases hni : alookup ni kv.1 with
        | none => rw [hni] at h; simp at h
        | some info =>
          rw [hni] at h
          simp only [List.nil_append, List.mem_singleton] at h
          exact ⟨kv, List.mem_cons_self kv rest, info, hni, h, by simpa using hd⟩
      · rw [if_neg hd] at h; simp at h
    · obtain ⟨kv', hkv', info, hni, hceq, hne⟩ := ih c h
      exact ⟨kv', List.mem_cons_of_mem kv hkv', info, hni, hceq, hne⟩

theorem computePRChanges_count (prev : List (String × PRStatus))
    (ni : List (String × PRInfo)) :
    ∀ ns : List (String × PRStatus), nodupKeys ns →
      (∀ k s, alookup ns k = Option.some s →
        ∃ i, alookup ni k = Option.some i ∧ PRKey i.owner i.repo i.number = k) →
      ∀ x, ((computePRChanges prev ns ni).filter
          (fun c => PRKey c.owner c.repo c.number == x)).length
        = if (match alookup ns x with
              | Option.some s => ((alookup prev x).getD PRStatus.none != s)
              | Option.none => false) = true then 1 else 0 := by
  intro ns
  induction ns with
  | nil => intro _ _ x; simp [computePRChanges, alookup_nil]
  | cons kv rest ih =>
    intro hnd hinfo x
    have hnd' : nodupKeys rest := (List.nodup_cons.mp hnd).2
    have hknotin : kv.1 ∉ rest.map Prod.fst := (List.nodup_cons.mp hnd).1
    have hinfo' : ∀ k s, alookup rest k = Option.some s →
        ∃ i, alookup ni k = Option.some i ∧ PRKey i.owner i.repo i.number = k := by
      intro k s hks
      apply hinfo k s
      have hne : kv.1 ≠ k := by
        intro hc
        exact hknotin (hc ▸ List.mem_map.mpr ⟨(k, s), mem_of_alookup_eq_some rest k s hks, rfl⟩)
      rw [alookup_cons]
      simp only [beq_iff_eq, hne, if_false]
      exact hks
    rw [computePRChanges_cons, List.filter_append, List.length_append]
    by_cases hx : kv.1 = x
    · subst hx
      have hR : alookup (kv :: rest) kv.1 = Option.some kv.2 := by
        rw [alookup_cons]; simp
      have hrest0 : ((computePRChanges prev rest ni).filter
          (fun c => PRKey c.owner c.repo c.number == kv.1)).length = 0 := by
        rw [List.length_eq_zero, List.filter_eq_nil_iff]
        intro c hc
        obtain ⟨kv', hkv', info, hni, hceq, _⟩ := mem_computePRChanges prev ni rest c hc
        have hlk : alookup rest kv'.1 = Option.some kv'.2 :=
          alookup_eq_some_of_mem rest kv'.1 kv'.2 hnd' hkv'
        obtain ⟨i2, hni2, hkey⟩ := hinfo' kv'.1 kv'.2 hlk
        have hieq : i2 = info := by rw [hni] at hni2; exact (Option.some.inj hni2).symm
        have hkey' : PRKey info.owner info.repo info.number = kv'.1 := hieq ▸ hkey
        have hc1 : PRKey c.owner c.repo c.number = kv'.1 := by
          rw [hceq]; exact hkey'
        have hne : kv'.1 ≠ kv.1 := by
          intro hcc
          exact hknotin (hcc ▸ List.mem_map.mpr ⟨kv', hkv', rfl⟩)
        simp [hc1, hne]
      rw [hrest0, hR]
      unfold diffStep
      by_cases hdiff : ((alookup prev kv.1).getD PRStatus.none != kv.2) = true
      · obtain ⟨i, hni, hkey⟩ := hinfo kv.1 kv.2 hR
        rw [if_pos hdiff, hni]
        simp [mkStatusChange, hkey, hdiff]
      · rw [if_neg hdiff]
        simp only [Bool.not_eq_true] at hdiff
        simp [hdiff]
    · have hR : alookup (kv :: rest) x = alookup rest x := by
        rw [alookup_cons]
        simp [hx]
      have hhead0 : ((diffStep prev ni [] kv).filter
          (fun c => PRKey c.owner c.repo c.number == x)).length = 0 := by
        unfold diffStep
        by_cases hdiff : ((alookup prev kv.1).getD PRStatus.none != kv.2) = true
        · rw [if_pos hdiff]
          cases hni : alookup ni kv.1 with
          | none => simp
          | some info =>
            have hRh : alookup (kv :: rest) kv.1 = Option.some kv.2 := by
              rw [alookup_cons]; simp
            obtain ⟨i2, hni2, hkey⟩ := hinfo kv.1 kv.2 hRh
            have hieq : i2 = info := by rw [hni] at hni2; exact (Option.some.inj hni2).symm
            have hkeq : PRKey info.owner info.repo info.number = kv.1 := hieq ▸ hkey
            simp [mkStatusChange, hkeq, hx]
        · rw [if_neg hdiff]; simp
      rw [hhead0, hR, ih hnd' hinfo' x]
      exact Nat.zero_add _

/-- C3: on the very first poll cycle no status transitions are emitted; on
a steady cycle with a successful PR fetch the emitted transitions are the
diff of the new status map against the retained baseline: every emitted
transition records a real status change for its identity, and each
identity gets exactly one transition exactly when its new status differs
from the prior cycle's (defaulting to `none` for identities without a
baseline entry). -/
theorem poll_transitions_spec :
    (∀ st env, (poll st env true).2.prChanges = []) ∧
    (∀ (st : PollerState) (env : PollEnv) pm, env.prRes = Except.ok pm →
      (poll st env false).2.prChanges = computePRChanges st.prStatuses pm.1 pm.2) ∧
    (∀ (prev ns : List (String × PRStatus)) (ni : List (String × PRInfo)),
      nodupKeys ns →
      (∀ k s, alookup ns k = Option.some s →
        ∃ i, alookup ni k = Option.some i ∧ PRKey i.owner i.repo i.number = k) →
      (∀ c ∈ computePRChanges prev ns ni,
        alookup ns (PRKey c.owner c.repo c.number) = Option.some c.newStatus ∧
        (alookup prev (PRKey c.owner c.repo c.number)).getD PRStatus.none = c.oldStatus ∧
        c.oldStatus ≠ c.newStatus) ∧
      (∀ x, ((computePRChanges prev ns ni).filter
          (fun c => PRKey c.owner c.repo c.number == x)).length
        = if (match alookup ns x with
              | Option.some s => ((alookup prev x).getD PRStatus.none != s)
              | Option.none => false) = true then 1 else 0)) := by
  refine ⟨?_, ?_, ?_⟩
  · intro st env
    obtain ⟨nr, pr, mr, wr, cf, iso⟩ := env
    cases nr <;> cases pr <;> simp [poll]
  · intro st env pm hpm
    obtain ⟨nr, pr, mr, wr, cf, iso⟩ := env
    simp only at hpm
    subst hpm
    cases nr <;> simp [poll]
  · intro prev ns ni hnd hinfo
    constructor
    · intro c hc
      obtain ⟨kv, hkv, info, hni, hceq, hne⟩ := mem_computePRChanges prev ni ns c hc
      have hlk : alookup ns kv.1 = Option.some kv.2 :=
        alookup_eq_some_of_mem ns kv.1 kv.2 hnd hkv
      obtain ⟨i2, hni2, hkey⟩ := hinfo kv.1 kv.2 hlk
      have hieq : i2 = info := by rw [hni] at hni2; exact (Option.some.inj hni2).symm
      have hkey' : PRKey info.owner info.repo info.number = kv.1 := hieq ▸ hkey
      have hc1 : PRKey c.owner c.repo c.number = kv.1 := by
        rw [hceq]; exact hkey'
      refine ⟨?_, ?_, ?_⟩
      · rw [hc1, hlk, hceq]; rfl
      · rw [hc1, hceq]; rfl
      · rw [hceq]
        simpa [mkStatusChange] using hne
    · exact computePRChanges_count prev ni ns hnd hinfo

/-- C3 witness: a single PR that was `pending` and is now `success` emits
exactly one transition for its identity. -/
theorem poll_transitions_spec_witness :
    ((computePRChanges [("o/r#1", PRStatus.pending)] [("o/r#1", PRStatus.success)]
        [("o/r#1", sampleInfo)]).filter
      (fun c => PRKey c.owner c.repo c.number == "o/r#1")).length = 1 := by
  have h := (poll_transitions_spec.2.2 [("o/r#1", PRStatus.pending)]
    [("o/r#1", PRStatus.success)] [("o/r#1", sampleInfo)]
    (by simp [nodupKeys])
    (by
      intro k s hks
      rw [alookup_cons] at hks
      by_cases hk : ("o/r#1" == k) = true
      · have hk' : k = "o/r#1" := by
          have := beq_iff_eq.mp hk
          exact this.symm
        subst hk'
        exact ⟨sampleInfo, by rw [alookup_cons]; simp, by decide⟩
      · rw [if_neg (by simpa using hk)] at hks
        cases hks)).2 "o/r#1"
  rw [h]
  decide

theorem insertKV_fresh {α : Type} (m : List (String × α)) (k : String) (v : α)
    (h : k ∉ m.map Prod.fst) : insertKV m k v = (k, v) :: m := by
  unfold insertKV
  congr 1
  apply List.filter_eq_self.mpr
  intro kv hkv
  have hne : kv.1 ≠ k := fun hc => h (hc ▸ List.mem_map.mpr ⟨kv, hkv, rfl⟩)
  simp [hne]

theorem pollItems_go (env : PRFetchEnv) (total : Nat) :
    ∀ (l : List SearchItem)
      (acc : List (String × PRStatus) × List (String × PRInfo) × List LoadingProgress),
      (∀ it ∈ l, (parseRepoURL it.repositoryURL).1 ≠ ""
        ∧ (parseRepoURL it.repositoryURL).2 ≠ "") →
      (l.map itemKey).Nodup →
      (∀ it ∈ l, itemKey it ∉ acc.1.map Prod.fst) →
      (∀ it ∈ l, itemKey it ∉ acc.2.1.map Prod.fst) →
      (l.foldl (pollStep env total) acc).1.length = acc.1.length + l.length ∧
      (l.foldl (pollStep env total) acc).2.1.length = acc.2.1.length + l.length ∧
      (l.foldl (pollStep env total) acc).2.2.length = acc.2.2.length + l.length ∧
      (∀ it ∈ l,
        alookup (l.foldl (pollStep env total) acc).1 (itemKey it)
          = Option.some (fetchOnePR env it (parseRepoURL it.repositoryURL).1
              (parseRepoURL it.repositoryURL).2).1
        ∧ alookup (l.foldl (pollStep env total) acc).2.1 (itemKey it)
          = Option.some (fetchOnePR env it (parseRepoURL it.repositoryURL).1
              (parseRepoURL it.repositoryURL).2).2) ∧
      (∀ k, k ∉ l.map itemKey →
        alookup (l.foldl (pollStep env total) acc).1 k = alookup acc.1 k
        ∧ alookup (l.foldl (pollStep env total) acc).2.1 k = alookup acc.2.1 k) := by
  intro l
  induction l with
  | nil =>
    intro acc _ _ _ _
    refine ⟨by simp, by simp, by simp, by simp, ?_⟩
    intro k _
    exact ⟨rfl, rfl⟩
  | cons item rest ih =>
    intro acc hparse hnodup hf1 hf2
    have hpi := hparse item (List.mem_cons_self _ _)
    have hcond : ((parseRepoURL item.repositoryURL).1 == ""
        || (parseRepoURL item.repositoryURL).2 == "") = false := by
      simp [hpi.1, hpi.2]
    have hstep : pollStep env total acc item
        = ((itemKey item, (fetchOnePR env item (parseRepoURL item.repositoryURL).1
              (parseRepoURL item.repositoryURL).2).1) :: acc.1,
           (itemKey item, (fetchOnePR env item (parseRepoURL item.repositoryURL).1
              (parseRepoURL item.repositoryURL).2).2) :: acc.2.1,
           acc.2.2 ++ [{ step := LoadingStep.pullRequests,
                         current := acc.2.2.length + 1, total := total,
                         done := false }]) := by
      simp only [pollStep]
      rw [hcond]
      simp only [Bool.false_eq_true, if_false]
      rw [insertKV_fresh acc.1
          (PRKey (parseRepoURL item.repositoryURL).1 (parseRepoURL item.repositoryURL).2
            item.number) _ (hf1 item (List.mem_cons_self _ _)),
        insertKV_fresh acc.2.1
          (PRKey (parseRepoURL item.repositoryURL).1 (parseRepoURL item.repositoryURL).2
            item.number) _ (hf2 item (List.mem_cons_self _ _))]
      rfl
    have hmapc : (item :: rest).map itemKey = itemKey item :: rest.map itemKey :=
      List.map_cons itemKey item rest
    have hheadnot : itemKey item ∉ rest.map itemKey := by
      rw [hmapc] at hnodup
      exact (List.nodup_cons.mp hnodup).1
    have hnd' : (rest.map itemKey).Nodup := by
      rw [hmapc] at hnodup
      exact (List.nodup_cons.mp hnodup).2
    have hparse' : ∀ it ∈ rest, (parseRepoURL it.repositoryURL).1 ≠ ""
        ∧ (parseRepoURL it.repositoryURL).2 ≠ "" :=
      fun it hit => hparse it (List.mem_cons_of_mem _ hit)
    have hf1' : ∀ it ∈ rest, itemKey it ∉ (pollStep env total acc item).1.map Prod.fst := by
      intro it hit
      rw [hstep]
      simp only [List.map_cons, List.mem_cons]
      rintro (h | h)
      · exact hheadnot (h ▸ List.mem_map.mpr ⟨it, hit, rfl⟩)
      · exact hf1 it (List.mem_cons_of_mem _ hit) h
    have hf2' : ∀ it ∈ rest, itemKey it ∉ (pollStep env total acc item).2.1.map Prod.fst := by
      intro it hit
      rw [hstep]
      simp only [List.map_cons, List.mem_cons]
      rintro (h | h)
      · exact hheadnot (h ▸ List.mem_map.mpr ⟨it, hit, rfl⟩)
      · exact hf2 it (List.mem_cons_of_mem _ hit) h
    obtain ⟨L1, L2, L3, HL, HP⟩ :=
      ih (pollStep env total acc item) hparse' hnd' hf1' hf2'
    rw [List.foldl_cons]
    refine ⟨?_, ?_, ?_, ?_, ?_⟩
    · rw [L1, hstep]
      simp only [List.length_cons]
      omega
    · rw [L2, hstep]
      simp only [List.length_cons]
      omega
    · rw [L3, hstep]
      simp
      omega
    · intro it hit
      rcases List.mem_cons.mp hit with h | h
      · subst h
        have hpp := HP (itemKey it) hheadnot
        constructor
        · rw [hpp.1, hstep, alookup_cons]
          simp
        · rw [hpp.2, hstep, alookup_cons]
          simp
      · exact HL it h
    · intro k hk
      rw [hmapc] at hk
      have hk' : k ∉ rest.map itemKey := fun hc => hk (List.mem_cons_of_mem _ hc)
      have hkne : k ≠ itemKey item := fun hc => hk (hc ▸ List.mem_cons_self _ _)
      have hpp := HP k hk'
      constructor
      · rw [hpp.1, hstep, alookup_cons]
        simp [Ne.symm hkne]
      · rw [hpp.2, hstep, alookup_cons]
        simp [Ne.symm hkne]

/-- C5 (amended): for every list of N work items whose repository URLs
parse into non-empty owner and repo and whose keys are distinct, the fetch
swarm produces exactly N status entries, N info entries, and N progress
events, even when every per-item fetch fails — a failed item's status
defaults to `none` and the swarm is never aborted; for N = 0 it returns
immediately with empty maps and no progress events. -/
theorem pollItems_spec (env : PRFetchEnv) (items : List SearchItem)
    (hparse : ∀ it ∈ items, (parseRepoURL it.repositoryURL).1 ≠ ""
      ∧ (parseRepoURL it.repositoryURL).2 ≠ "")
    (hkeys : (items.map itemKey).Nodup) :
    (pollItems env items).1.length = items.length ∧
    (pollItems env items).2.1.length = items.length ∧
    (pollItems env items).2.2.length = items.length ∧
    (∀ it ∈ items,
      alookup (pollItems env items).1 (itemKey it)
        = Option.some (fetchOnePR env it (parseRepoURL it.repositoryURL).1
            (parseRepoURL it.repositoryURL).2).1) ∧
    (∀ it ∈ items, env.getPullRequest it = Option.none →
      alookup (pollItems env items).1 (itemKey it) = Option.some PRStatus.none) ∧
    pollItems env [] = ([], [], []) := by
  obtain ⟨L1, L2, L3, HL, _⟩ := pollItems_go env items.length items ([], [], [])
    hparse hkeys (by simp) (by simp)
  refine ⟨by simpa [pollItems] using L1, by simpa [pollItems] using L2,
    by simpa [pollItems] using L3, ?_, ?_, rfl⟩
  · intro it hit
    unfold pollItems
    exact (HL it hit).1
  · intro it hit hfail
    unfold pollItems
    rw [(HL it hit).1]
    simp [fetchOnePR, hfail]

/-- C5 counterexample: a single work item whose repository URL does not
parse is skipped entirely — one item in, zero results and zero progress
events out — so the swarm does not return one result per arbitrary item. -/
theorem pollItems_counterexample :
    [badItem].length = 1 ∧ (pollItems failEnv [badItem]).1.length = 0 ∧
    (pollItems failEnv [badItem]).2.1.length = 0 ∧
    (pollItems failEnv [badItem]).2.2.length = 0 := by
  refine ⟨rfl, ?_, ?_, ?_⟩ <;> decide

/-- C5 witness: one parseable item whose every per-item fetch fails still
yields exactly one result, with the status degraded to `none`. -/
theorem pollItems_spec_witness :
    (pollItems failEnv [sampleItem]).1.length = 1 ∧
    alookup (pollItems failEnv [sampleItem]).1 (itemKey sampleItem)
      = Option.some PRStatus.none := by
  have h := pollItems_spec failEnv [sampleItem]
    (by
      intro it hit
      rw [List.mem_singleton] at hit
      subst hit
      constructor <;> decide)
    (by decide)
  exact ⟨h.1, h.2.2.2.2.1 sampleItem (List.mem_singleton_self _) rfl⟩

theorem mem_foldl_insertKV {α β : Type} (g : β → String × α) :
    ∀ (l : List β) (base : List (String × α)) (kv : String × α),
      kv ∈ l.foldl (fun c b => insertKV c (g b).1 (g b).2) base →
      kv ∈ base ∨ ∃ b ∈ l, (g b).1 = kv.1 := by
  intro l
  induction l with
  | nil => intro base kv h; exact Or.inl h
  | cons b rest ih =>
    intro base kv h
    rw [List.foldl_cons] at h
    rcases ih (insertKV base (g b).1 (g b).2) kv h with h2 | h2
    · unfold insertKV at h2
      rcases List.mem_cons.mp h2 with h3 | h3
      · right
        exact ⟨b, List.mem_cons_self _ _, by rw [h3]⟩
      · left
        exact List.mem_of_mem_filter h3
    · right
      obtain ⟨b', hb', he⟩ := h2
      exact ⟨b', List.mem_cons_of_mem _ hb', he⟩

/-- C9 (amended): an empty notification fetch returns the cache untouched
(the Go function returns before the eviction pass); for every non-empty
notification list, every URL key in the updated cache is the
latest-comment URL of some notification in that fetch — entries whose
owning notification no longer appears are dropped. -/
theorem enrichNotifications_spec :
    (∀ cache fetch, enrichNotifications cache [] fetch = (cache, [])) ∧
    (∀ (cache : List (String × CommentDetail)) (notifications : List Notification)
        (fetch : String → Option CommentDetail), notifications ≠ [] →
      ∀ kv ∈ (enrichNotifications cache notifications fetch).1,
        ∃ n ∈ notifications, n.subject.latestCommentURL = kv.1) := by
  constructor
  · intro cache fetch
    rfl
  · intro cache notifications fetch hne kv hkv
    have hne' : notifications.isEmpty = false := by
      cases notifications with
      | nil => exact absurd rfl hne
      | cons a l => rfl
    unfold enrichNotifications at hkv
    simp only [hne', Bool.false_eq_true, if_false] at hkv
    rcases mem_foldl_insertKV (fun f : String × String × CommentDetail => (f.2.1, f.2.2))
        _ _ _ hkv with h | h
    · have h2 := List.mem_filter.mp h
      have h3 : kv.1 ∈ (notifications.filter
          (fun n => n.subject.latestCommentURL != "")).map
            (fun n => n.subject.latestCommentURL) := by
        simpa using h2.2
      obtain ⟨n, hn, hn2⟩ := List.mem_map.mp h3
      exact ⟨n, List.mem_of_mem_filter hn, hn2⟩
    · obtain ⟨f, hf, hfe⟩ := h
      obtain ⟨n, hn, hmap⟩ := List.mem_filterMap.mp hf
      cases hd : fetch n.subject.latestCommentURL with
      | none => rw [hd] at hmap; cases hmap
      | some d =>
        rw [hd] at hmap
        have hfeq : (n.id, n.subject.latestCommentURL, d) = f := by
          simpa using hmap
        refine ⟨n, List.mem_of_mem_filter (List.mem_of_mem_filter hn), ?_⟩
        rw [← hfe, ← hfeq]

/-- C9 counterexample: after an enrichment step with an empty notification
list, a previously cached URL key survives even though it is not the
latest-comment URL of any notification in that (empty) fetch, so eviction
does not happen on the empty list. -/
theorem enrichNotifications_counterexample :
    (enrichNotifications [("u", sampleDetail)] [] (fun _ => Option.none)).1
      = [("u", sampleDetail)]
    ∧ (¬ ∃ n ∈ ([] : List Notification), n.subject.latestCommentURL = "u") := by
  exact ⟨rfl, by simp⟩

/-- C9 witness: applying the amended theorem to a concrete cache hit shows
the surviving key `u` belongs to a notification of the fetch. -/
theorem enrichNotifications_spec_witness :
    [sampleNotification].any (fun n => n.subject.latestCommentURL == "u") = true := by
  obtain ⟨n, hn, he⟩ := enrichNotifications_spec.2 [("u", sampleDetail)]
    [sampleNotification] (fun _ => Option.none) (by simp) ("u", sampleDetail)
    (by decide)
  exact List.any_eq_true.mpr ⟨n, hn, by simp [he]⟩

theorem lookupAct_login : ∀ (acc : List OrgMemberActivity) (q : String)
    (a : OrgMemberActivity), lookupAct acc q = Option.some a → a.login = q := by
  intro acc
  induction acc with
  | nil => intro q a h; cases h
  | cons b rest ih =>
    intro q a h
    unfold lookupAct at h
    by_cases hb : (b.login == q) = true
    · rw [if_pos hb] at h
      rw [← Option.some.inj h]
      exact beq_iff_eq.mp hb
    · rw [if_neg hb] at h
      exact ih q a h

theorem mem_of_lookupAct : ∀ (acc : List OrgMemberActivity) (q : String)
    (a : OrgMemberActivity), lookupAct acc q = Option.some a → a ∈ acc := by
  intro acc
  induction acc with
  | nil => intro q a h; cases h
  | cons b rest ih =>
    intro q a h
    unfold lookupAct at h
    by_cases hb : (b.login == q) = true
    · rw [if_pos hb] at h
      rw [← Option.some.inj h]
      exact List.mem_cons_self b rest
    · rw [if_neg hb] at h
      exact List.mem_cons_of_mem b (ih q a h)

theorem lookupAct_of_mem : ∀ (acc : List OrgMemberActivity), nodupLogins acc →
    ∀ a ∈ acc, lookupAct acc a.login = Option.some a := by
  intro acc
  induction acc with
  | nil => intro _ a ha; cases ha
  | cons b rest ih =>
    intro hnd a ha
    rcases List.mem_cons.mp ha with h | h
    · subst h
      unfold lookupAct
      simp
    · have hne : b.login ≠ a.login := by
        intro hc
        exact (List.nodup_cons.mp hnd).1 (hc ▸ List.mem_map.mpr ⟨a, h, rfl⟩)
      unfold lookupAct
      simp only [beq_iff_eq, hne, if_false]
      exact ih (List.nodup_cons.mp hnd).2 a h

theorem lookupAct_cons (b : OrgMemberActivity) (rest : List OrgMemberActivity)
    (q : String) : lookupAct (b :: rest) q
      = if b.login == q then Option.some b else lookupAct rest q := rfl

theorem lookupAct_isSome_iff_any (acc : List OrgMemberActivity) (q : String) :
    (lookupAct acc q).isSome = true ↔ acc.any (fun a => a.login == q) = true := by
  induction acc with
  | nil => simp [lookupAct]
  | cons b rest ih =>
    rw [lookupAct_cons]
    by_cases hb : (b.login == q) = true
    · simp [hb]
    · have hb' : (b.login == q) = false := by simpa using hb
      simp [hb', ih]

theorem lookupAct_map_update (f : OrgMemberActivity → OrgMemberActivity)
    (l : String) (hf : ∀ a, (f a).login = a.login) :
    ∀ (acc : List OrgMemberActivity) (q : String),
      lookupAct (acc.map (fun a => if a.login == l then f a else a)) q
        = (lookupAct acc q).map (fun a => if a.login == l then f a else a) := by
  intro acc
  induction acc with
  | nil => intro q; rfl
  | cons b rest ih =>
    intro q
    rw [List.map_cons]
    unfold lookupAct
    have hlogin : (if b.login == l then f b else b).login = b.login := by
      by_cases hb : (b.login == l) = true
      · rw [if_pos hb]; exact hf b
      · rw [if_neg hb]
    rw [hlogin]
    by_cases hb : (b.login == q) = true
    · rw [if_pos hb, if_pos hb]
      rfl
    · rw [if_neg hb, if_neg hb]
      exact ih q

theorem lookupAct_append : ∀ (acc l2 : List OrgMemberActivity) (q : String),
    lookupAct (acc ++ l2) q
      = match lookupAct acc q with
        | Option.some a => Option.some a
        | Option.none => lookupAct l2 q := by
  intro acc
  induction acc with
  | nil => intro l2 q; rfl
  | cons b rest ih =>
    intro l2 q
    rw [List.cons_append, lookupAct_cons, lookupAct_cons]
    by_cases hb : (b.login == q) = true
    · rw [if_pos hb, if_pos hb]
    · rw [if_neg hb, if_neg hb]
      exact ih l2 q

theorem updateActivity_spec (acc : List OrgMemberActivity) (l : String)
    (f : OrgMemberActivity → OrgMemberActivity) (hf : ∀ a, (f a).login = a.login)
    (hnd : nodupLogins acc) :
    nodupLogins (updateActivity acc l f) ∧
    (∀ q, lookupAct (updateActivity acc l f) q =
      if q = l then Option.some (f ((lookupAct acc l).getD (emptyActivity l)))
      else lookupAct acc q) := by
  unfold updateActivity
  by_cases hany : acc.any (fun a => a.login == l) = true
  · rw [if_pos hany]
    constructor
    · unfold nodupLogins
      rw [List.map_map]
      have : (OrgMemberActivity.login ∘ fun a => if a.login == l then f a else a)
          = OrgMemberActivity.login := by
        funext a
        by_cases hb : a.login = l
        · simp [hb, hf a]
        · simp [hb]
      rw [this]
      exact hnd
    · intro q
      rw [lookupAct_map_update f l hf acc q]
      have hsome : (lookupAct acc l).isSome = true :=
        (lookupAct_isSome_iff_any acc l).mpr hany
      by_cases hq : q = l
      · subst hq
        obtain ⟨a, ha⟩ := Option.isSome_iff_exists.mp hsome
        rw [ha]
        have halogin : a.login = q := lookupAct_login acc q a ha
        simp [halogin]
      · rw [if_neg hq]
        cases hl : lookupAct acc q with
        | none => rfl
        | some a =>
          have halogin : a.login = q := lookupAct_login acc q a hl
          simp [halogin, hq]
  · rw [if_neg hany]
    have hnone : lookupAct acc l = Option.none := by
      cases hl : lookupAct acc l with
      | none => rfl
      | some a =>
        exact absurd ((lookupAct_isSome_iff_any acc l).mp (by rw [hl]; rfl)) hany
    constructor
    · unfold nodupLogins
      rw [List.map_append]
      rw [List.nodup_append]
      refine ⟨hnd, by simp, ?_⟩
      intro x hx
      simp only [List.map_cons, List.map_nil, List.mem_singleton, hf]
      intro hc
      rw [hc] at hx
      simp only [emptyActivity] at hx
      obtain ⟨a, ha, halogin⟩ := List.mem_map.mp hx
      have : acc.any (fun a => a.login == l) = true :=
        List.any_eq_true.mpr ⟨a, ha, by simp [halogin]⟩
      exact hany this
    · intro q
      rw [lookupAct_append]
      by_cases hq : q = l
      · subst hq
        rw [hnone, if_pos rfl]
        show lookupAct [f (emptyActivity q)] q
          = Option.some (f (Option.none.getD (emptyActivity q)))
        rw [lookupAct_cons, if_pos (by rw [hf]; simp [emptyActivity])]
        rfl
      · cases hl : lookupAct acc q with
        | none =>
          rw [if_neg hq]
          show lookupAct [f (emptyActivity l)] q = Option.none
          rw [lookupAct_cons]
          have hfl : ¬ ((f (emptyActivity l)).login == q) = true := by
            rw [hf]
            simp only [emptyActivity, beq_iff_eq]
            exact fun hc => hq hc.symm
          rw [if_neg hfl]
          rfl
        | some a =>
          rw [if_neg hq]

theorem orgFold_spec (g : SearchItem → OrgMemberActivity → OrgMemberActivity)
    (hg : ∀ it a, (g it a).login = a.login) :
    ∀ (items : List SearchItem) (acc : List OrgMemberActivity), nodupLogins acc →
      nodupLogins (items.foldl (orgStep g) acc) ∧
      (∀ q, q ≠ "" → isBot q = false →
        lookupAct (items.foldl (orgStep g) acc) q =
          if ((lookupAct acc q).isSome
              || items.any (fun it => it.user.login == q)) = true then
            Option.some ((items.filter (fun it => it.user.login == q)).foldl
              (fun e it => g it e) ((lookupAct acc q).getD (emptyActivity q)))
          else Option.none) ∧
      (∀ q, q = "" ∨ isBot q = true →
        lookupAct (items.foldl (orgStep g) acc) q = lookupAct acc q) := by
  intro items
  induction items with
  | nil =>
    intro acc hnd
    refine ⟨hnd, ?_, fun q _ => rfl⟩
    intro q _ _
    simp only [List.foldl_nil, List.any_nil, Bool.or_false, List.filter_nil]
    cases hl : lookupAct acc q with
    | none => simp
    | some a => simp
  | cons it rest ih =>
    intro acc hnd
    rw [List.foldl_cons]
    by_cases hskip : (it.user.login == "" || isBot it.user.login) = true
    · have hstep : orgStep g acc it = acc := by
        unfold orgStep
        rw [if_pos hskip]
      rw [hstep]
      obtain ⟨H1, H2, H3⟩ := ih acc hnd
      refine ⟨H1, ?_, H3⟩
      intro q hq1 hq2
      rw [H2 q hq1 hq2]
      have hskip' : it.user.login = "" ∨ isBot it.user.login = true := by
        simpa using hskip
      have hhead : (it.user.login == q) = false := by
        rcases hskip' with h | h
        · exact beq_eq_false_iff_ne.mpr (fun hc => hq1 (hc ▸ h))
        · exact beq_eq_false_iff_ne.mpr
            (fun hc => by rw [← hc, h] at hq2; cases hq2)
      simp [List.any_cons, List.filter_cons, hhead]
    · have hproc : orgStep g acc it = updateActivity acc it.user.login (g it) := by
        unfold orgStep
        rw [if_neg hskip]
      have hrel1 : it.user.login ≠ "" := by
        intro hc
        exact hskip (by simp [hc])
      have hrel2 : isBot it.user.login = false := by
        cases hb : isBot it.user.login with
        | false => rfl
        | true => exact absurd (by simp [hb]) hskip
      obtain ⟨hupd_nd, hupd_lk⟩ := updateActivity_spec acc it.user.login (g it) (hg it) hnd
      rw [hproc]
      obtain ⟨H1, H2, H3⟩ := ih (updateActivity acc it.user.login (g it)) hupd_nd
      refine ⟨H1, ?_, ?_⟩
      · intro q hq1 hq2
        rw [H2 q hq1 hq2]
        by_cases hq : q = it.user.login
        · have hhead : (it.user.login == q) = true := by simp [hq]
          have hlk : lookupAct (updateActivity acc it.user.login (g it)) q
              = Option.some (g it ((lookupAct acc q).getD (emptyActivity q))) := by
            rw [hupd_lk q, if_pos hq, hq]
          rw [hlk]
          simp [List.any_cons, List.filter_cons, hhead]
        · have hhead : (it.user.login == q) = false :=
            beq_eq_false_iff_ne.mpr (fun hc => hq hc.symm)
          have hlk : lookupAct (updateActivity acc it.user.login (g it)) q
              = lookupAct acc q := by
            rw [hupd_lk q, if_neg hq]
          rw [hlk]
          simp [List.any_cons, List.filter_cons, hhead]
      · intro q hq
        rw [H3 q hq]
        rw [hupd_lk q, if_neg]
        intro hc
        rcases hq with h | h
        · exact hrel1 (by rw [← hc]; exact h)
        · rw [hc] at h
          rw [hrel2] at h
          cases h

theorem foldl_appendMergedRec (l : List SearchItem) :
    ∀ e, l.foldl (fun e it => appendMergedRec it e) e
      = { e with mergedPRs := e.mergedPRs ++ l.map toMergedRec } := by
  induction l with
  | nil => intro e; simp
  | cons it rest ih =>
    intro e
    rw [List.foldl_cons, ih]
    simp [appendMergedRec]

theorem foldl_appendOpenRec (l : List SearchItem) :
    ∀ e, l.foldl (fun e it => appendOpenRec it e) e
      = { e with openPRs := e.openPRs ++ l.map toOpenRec } := by
  induction l with
  | nil => intro e; simp
  | cons it rest ih =>
    intro e
    rw [List.foldl_cons, ih]
    simp [appendOpenRec]

theorem addMerged_eq : addMerged = orgStep appendMergedRec := rfl

theorem addOpen_eq : addOpen = orgStep appendOpenRec := rfl

theorem buildActivity_spec (mergedItems openItems : List SearchItem) :
    nodupLogins (openItems.foldl addOpen (mergedItems.foldl addMerged [])) ∧
    (∀ q, q ≠ "" → isBot q = false →
      lookupAct (openItems.foldl addOpen (mergedItems.foldl addMerged [])) q =
        if (mergedItems.any (fun it => it.user.login == q)
            || openItems.any (fun it => it.user.login == q)) = true then
          Option.some (activityEntry mergedItems openItems q)
        else Option.none) ∧
    (∀ q, q = "" ∨ isBot q = true →
      lookupAct (openItems.foldl addOpen (mergedItems.foldl addMerged [])) q
        = Option.none) := by
  rw [addMerged_eq, addOpen_eq]
  obtain ⟨P1nd, P1lk, P1ir⟩ := orgFold_spec appendMergedRec (fun it a => rfl)
    mergedItems [] (by simp [nodupLogins])
  obtain ⟨P2nd, P2lk, P2ir⟩ := orgFold_spec appendOpenRec (fun it a => rfl)
    openItems (mergedItems.foldl (orgStep appendMergedRec) []) P1nd
  have hP1 : ∀ q, q ≠ "" → isBot q = false →
      lookupAct (mergedItems.foldl (orgStep appendMergedRec) []) q =
        if mergedItems.any (fun it => it.user.login == q) = true then
          Option.some
            { login := q
              mergedPRs := (mergedItems.filter
                (fun it => it.user.login == q)).map toMergedRec
              openPRs := [] }
        else Option.none := by
    intro q hq1 hq2
    rw [P1lk q hq1 hq2]
    have h0 : lookupAct ([] : List OrgMemberActivity) q = Option.none := rfl
    rw [h0]
    simp only [Option.isSome_none, Bool.false_or, Option.getD_none]
    by_cases hM : mergedItems.any (fun it => it.user.login == q) = true
    · rw [if_pos hM, if_pos hM, foldl_appendMergedRec]
      simp [emptyActivity]
    · rw [if_neg hM, if_neg hM]
  refine ⟨P2nd, ?_, ?_⟩
  · intro q hq1 hq2
    rw [P2lk q hq1 hq2, hP1 q hq1 hq2]
    by_cases hM : mergedItems.any (fun it => it.user.login == q) = true
    · rw [if_pos hM]
      simp only [Option.isSome_some, Bool.true_or, if_true, Option.getD_some]
      rw [if_pos (by simp [hM]), foldl_appendOpenRec]
      simp [activityEntry]
    · rw [if_neg hM]
      simp only [Option.isSome_none, Bool.false_or, Option.getD_none]
      have hfM : mergedItems.filter (fun it => it.user.login == q) = [] := by
        rw [List.filter_eq_nil_iff]
        intro it hit hc
        exact hM (List.any_eq_true.mpr ⟨it, hit, hc⟩)
      by_cases hO : openItems.any (fun it => it.user.login == q) = true
      · rw [if_pos hO, if_pos (by simp [hO]), foldl_appendOpenRec]
        simp [activityEntry, emptyActivity, hfM]
      · rw [if_neg hO, if_neg (by simp [hM, hO])]
  · intro q hq
    rw [P2ir q hq, P1ir q hq]
    rfl

theorem buildActivity_mem (mergedItems openItems : List SearchItem)
    (a : OrgMemberActivity) :
    a ∈ openItems.foldl addOpen (mergedItems.foldl addMerged []) ↔
      (a.login ≠ "" ∧ isBot a.login = false
        ∧ (mergedItems.any (fun it => it.user.login == a.login)
            || openItems.any (fun it => it.user.login == a.login)) = true
        ∧ a = activityEntry mergedItems openItems a.login) := by
  obtain ⟨hnd, hlk, hirr⟩ := buildActivity_spec mergedItems openItems
  constructor
  · intro ha
    have hl := lookupAct_of_mem _ hnd a ha
    by_cases h1 : a.login = ""
    · rw [hirr a.login (Or.inl h1)] at hl
      cases hl
    · by_cases h2 : isBot a.login = true
      · rw [hirr a.login (Or.inr h2)] at hl
        cases hl
      · have h2' : isBot a.login = false := by
          cases hb : isBot a.login with
          | false => rfl
          | true => exact absurd hb h2
        rw [hlk a.login h1 h2'] at hl
        by_cases hc : (mergedItems.any (fun it => it.user.login == a.login)
            || openItems.any (fun it => it.user.login == a.login)) = true
        · rw [if_pos hc] at hl
          exact ⟨h1, h2', hc, (Option.some.inj hl).symm⟩
        · rw [if_neg hc] at hl
          cases hl
  · rintro ⟨h1, h2, h3, h4⟩
    have hl := hlk a.login h1 h2
    rw [if_pos h3, ← h4] at hl
    exact mem_of_lookupAct _ _ _ hl

theorem insertByMerged_perm (a : OrgMemberActivity) :
    ∀ l, (insertByMerged a l).Perm (a :: l) := by
  intro l
  induction l with
  | nil => exact List.Perm.refl _
  | cons b rest ih =>
    unfold insertByMerged
    by_cases h : b.mergedPRs.length < a.mergedPRs.length
    · rw [if_pos h]
    · rw [if_neg h]
      exact (List.Perm.cons b ih).trans (List.Perm.swap a b rest)

theorem sortByMergedDesc_perm : ∀ l, (sortByMergedDesc l).Perm l := by
  intro l
  induction l with
  | nil => exact List.Perm.refl _
  | cons a rest ih =>
    unfold sortByMergedDesc
    rw [List.foldr_cons]
    exact (insertByMerged_perm a _).trans (List.Perm.cons a ih)

theorem insertByMerged_pairwise (a : OrgMemberActivity) :
    ∀ l, l.Pairwise (fun x y => y.mergedPRs.length ≤ x.mergedPRs.length) →
      (insertByMerged a l).Pairwise
        (fun x y => y.mergedPRs.length ≤ x.mergedPRs.length) := by
  intro l
  induction l with
  | nil => intro _; simp [insertByMerged]
  | cons b rest ih =>
    intro hp
    obtain ⟨hb, hrest⟩ := List.pairwise_cons.mp hp
    unfold insertByMerged
    by_cases h : b.mergedPRs.length < a.mergedPRs.length
    · rw [if_pos h]
      refine List.pairwise_cons.mpr ⟨?_, hp⟩
      intro x hx
      rcases List.mem_cons.mp hx with h2 | h2
      · rw [h2]; omega
      · have := hb x h2; omega
    · rw [if_neg h]
      refine List.pairwise_cons.mpr ⟨?_, ih hrest⟩
      intro x hx
      have hx' := (insertByMerged_perm a rest).mem_iff.mp hx
      rcases List.mem_cons.mp hx' with h2 | h2
      · rw [h2]; omega
      · exact hb x h2

theorem sortByMergedDesc_pairwise : ∀ l, (sortByMergedDesc l).Pairwise
    (fun x y => y.mergedPRs.length ≤ x.mergedPRs.length) := by
  intro l
  induction l with
  | nil => simp [sortByMergedDesc]
  | cons a rest ih =>
    unfold sortByMergedDesc
    rw [List.foldr_cons]
    exact insertByMerged_pairwise a _ ih

/-- C6: every entry of the org-activity overview has a non-empty, non-bot
author login (so `foo[bot]` never appears, roster membership is not
required), logins are pairwise distinct (one entry per author), an entry's
record lists are exactly the author's merged and open search items (so an
author with 3 merged and 0 open PRs carries 3 merged records), an author
appears exactly when it is a non-bot with at least one merged or open PR
in the result sets (zero-activity members are dropped), and the list is
sorted by descending merged-PR count. -/
theorem FetchOrgActivity_spec (mergedItems openItems : List SearchItem) :
    (∀ a ∈ FetchOrgActivity mergedItems openItems,
      a.login ≠ "" ∧ isBot a.login = false
        ∧ a = activityEntry mergedItems openItems a.login
        ∧ (a.mergedPRs ≠ [] ∨ a.openPRs ≠ [])) ∧
    ((FetchOrgActivity mergedItems openItems).map OrgMemberActivity.login).Nodup ∧
    (∀ l : String,
      (∃ a ∈ FetchOrgActivity mergedItems openItems, a.login = l) ↔
        (l ≠ "" ∧ isBot l = false
          ∧ ∃ it ∈ mergedItems ++ openItems, it.user.login = l)) ∧
    (FetchOrgActivity mergedItems openItems).Pairwise
      (fun x y => y.mergedPRs.length ≤ x.mergedPRs.length) := by
  have hunfold : FetchOrgActivity mergedItems openItems
      = sortByMergedDesc ((openItems.foldl addOpen
          (mergedItems.foldl addMerged [])).filter
        (fun a => decide (0 < a.mergedPRs.length)
          || decide (0 < a.openPRs.length))) := rfl
  have hperm : (FetchOrgActivity mergedItems openItems).Perm
      ((openItems.foldl addOpen (mergedItems.foldl addMerged [])).filter
        (fun a => decide (0 < a.mergedPRs.length)
          || decide (0 < a.openPRs.length))) := by
    rw [hunfold]
    exact sortByMergedDesc_perm _
  have hmem : ∀ a, a ∈ FetchOrgActivity mergedItems openItems ↔
      (a ∈ openItems.foldl addOpen (mergedItems.foldl addMerged [])
        ∧ (decide (0 < a.mergedPRs.length) || decide (0 < a.openPRs.length)) = true) := by
    intro a
    rw [hperm.mem_iff, List.mem_filter]
  refine ⟨?_, ?_, ?_, ?_⟩
  · intro a ha
    obtain ⟨hact, hne⟩ := (hmem a).mp ha
    obtain ⟨h1, h2, h3, h4⟩ := (buildActivity_mem mergedItems openItems a).mp hact
    refine ⟨h1, h2, h4, ?_⟩
    rcases Bool.or_eq_true_iff.mp hne with h | h
    · left
      have : 0 < a.mergedPRs.length := of_decide_eq_true h
      exact List.ne_nil_of_length_pos this
    · right
      have : 0 < a.openPRs.length := of_decide_eq_true h
      exact List.ne_nil_of_length_pos this
  · have hsub : ((openItems.foldl addOpen (mergedItems.foldl addMerged [])).filter
        (fun a => decide (0 < a.mergedPRs.length) || decide (0 < a.openPRs.length))).Sublist
      (openItems.foldl addOpen (mergedItems.foldl addMerged [])) :=
      List.filter_sublist _
    have hndfil : (((openItems.foldl addOpen
        (mergedItems.foldl addMerged [])).filter
        (fun a => decide (0 < a.mergedPRs.length)
          || decide (0 < a.openPRs.length))).map OrgMemberActivity.login).Nodup :=
      (hsub.map OrgMemberActivity.login).nodup
        (buildActivity_spec mergedItems openItems).1
    exact (hperm.map OrgMemberActivity.login).nodup_iff.mpr hndfil
  · intro l
    constructor
    · rintro ⟨a, ha, rfl⟩
      obtain ⟨hact, _⟩ := (hmem a).mp ha
      obtain ⟨h1, h2, h3, _⟩ := (buildActivity_mem mergedItems openItems a).mp hact
      refine ⟨h1, h2, ?_⟩
      rcases Bool.or_eq_true_iff.mp h3 with h | h
      · obtain ⟨it, hit, hpred⟩ := List.any_eq_true.mp h
        exact ⟨it, List.mem_append_left _ hit, beq_iff_eq.mp hpred⟩
      · obtain ⟨it, hit, hpred⟩ := List.any_eq_true.mp h
        exact ⟨it, List.mem_append_right _ hit, beq_iff_eq.mp hpred⟩
    · rintro ⟨h1, h2, it, hit, hlogin⟩
      have h3 : (mergedItems.any (fun it => it.user.login == l)
          || openItems.any (fun it => it.user.login == l)) = true := by
        rcases List.mem_append.mp hit with h | h
        · exact Bool.or_eq_true_iff.mpr
            (Or.inl (List.any_eq_true.mpr ⟨it, h, by simp [hlogin]⟩))
        · exact Bool.or_eq_true_iff.mpr
            (Or.inr (List.any_eq_true.mpr ⟨it, h, by simp [hlogin]⟩))
      have hact : activityEntry mergedItems openItems l
          ∈ openItems.foldl addOpen (mergedItems.foldl addMerged []) := by
        apply (buildActivity_mem mergedItems openItems _).mpr
        exact ⟨h1, h2, h3, rfl⟩
      have hp : (decide (0 < (activityEntry mergedItems openItems l).mergedPRs.length)
          || decide (0 < (activityEntry mergedItems openItems l).openPRs.length)) = true := by
        rcases List.mem_append.mp hit with h | h
        · have hmemf : it ∈ mergedItems.filter (fun it => it.user.login == l) :=
            List.mem_filter.mpr ⟨h, by simp [hlogin]⟩
          have : 0 < (activityEntry mergedItems openItems l).mergedPRs.length := by
            unfold activityEntry
            simp only [List.length_map]
            exact List.length_pos.mpr (List.ne_nil_of_mem hmemf)
          simp [this]
        · have hmemf : it ∈ openItems.filter (fun it => it.user.login == l) :=
            List.mem_filter.mpr ⟨h, by simp [hlogin]⟩
          have : 0 < (activityEntry mergedItems openItems l).openPRs.length := by
            unfold activityEntry
            simp only [List.length_map]
            exact List.length_pos.mpr (List.ne_nil_of_mem hmemf)
          simp [this]
      exact ⟨activityEntry mergedItems openItems l,
        (hmem _).mpr ⟨hact, hp⟩, rfl⟩
  · rw [hunfold]
    exact sortByMergedDesc_pairwise _

end Hubell
